import Mathlib

/-!
Verification development for the cfg-rs configuration core.

This file gives a shallow embedding, in Lean 4, of the key-path
normalization, the layered key-value store, the placeholder resolution
engine, the refresh registry and the typed converters of the cfg-rs
repository, and proves (or refutes) the specification claims about them.

Modelling conventions:
* Rust `String` / `&str` become Lean `String`; the scanners work on
  `List Char` (the source indexes by bytes; on the ASCII inputs the
  claims are about, byte positions and character positions coincide).
* Rust `usize` is `Nat` with explicit bound `usizeMax = 2 ^ 64 - 1`
  where the source can fail on overflow (`str::parse::<usize>`).
* `HashMap` / `HashSet` become association lists / lists without
  duplicates; insertion order is irrelevant to the proved statements.
* Fallible code returns `Except CfgError`; `&mut HashSet<String>`
  (the placeholder history) is explicit state, passed in and returned.
* General recursion (the mutually recursive placeholder resolver) is
  embedded with an explicit fuel parameter, structurally decreasing, so
  that every definition remains executable by `decide` / `rfl`.
* `ConfigValue::Float` and `ConfigValue::Rand` are omitted from the
  scalar type: no claim mentions floats or random markers.
-/

namespace CfgRs

/-! ## Key model (src/key.rs)

`SubKey` is `key::SubKey`: a key segment, either a name or an index.
A name segment is kept as its character list.
-/

inductive SubKey where
  | Str (s : List Char) : SubKey
  | Int (i : Nat) : SubKey
deriving DecidableEq, Repr

/-- The three delimiter characters `.`, `[`, `]` that
`Into<SubKeySeq> for &str` splits a raw key on. -/
def isKeyDelim (c : Char) : Bool :=
  c = '.' || c = '[' || c = ']'

/-- Decimal digit characters for one digit value (`0 ≤ d ≤ 9`);
out-of-range values map to `'*'` (never used). -/
def digitChar (d : Nat) : Char :=
  match d with
  | 0 => '0' | 1 => '1' | 2 => '2' | 3 => '3' | 4 => '4'
  | 5 => '5' | 6 => '6' | 7 => '7' | 8 => '8' | 9 => '9'
  | _ => '*'

/-- Decimal rendering of a `Nat` (the embedding of Rust
`usize::to_string`), written with an explicit fuel argument so that the
definition is structurally recursive; `natChars` supplies enough fuel. -/
def natCharsAux : Nat → Nat → List Char
  | 0, _ => []
  | fuel + 1, n =>
    if n < 10 then [digitChar n]
    else natCharsAux fuel (n / 10) ++ [digitChar (n % 10)]

def natChars (n : Nat) : List Char := natCharsAux (n + 1) n

/-- Value of `usize::MAX` on the 64-bit targets the crate is built for. -/
def usizeMax : Nat := 2 ^ 64 - 1

/-- Decimal value of a digit list (helper for `parseNatBounded`). -/
def digitsVal (cs : List Char) : Nat :=
  cs.foldl (fun a c => a * 10 + (c.toNat - 48)) 0

/-- Embedding of Rust `str::parse` for an unsigned integer type with
maximum value `bound`: the digit block must be nonempty, all digits, and
its value must not overflow.  (Overflow of any intermediate state is
equivalent to overflow of the final value, since the accumulator is
monotone.) -/
def parseNatCore (bound : Nat) (cs : List Char) : Option Nat :=
  if cs ≠ [] ∧ cs.all Char.isDigit then
    if digitsVal cs ≤ bound then some (digitsVal cs) else none
  else none

/-- Rust unsigned `parse` also accepts a single leading `+`. -/
def parseNatBounded (bound : Nat) (cs : List Char) : Option Nat :=
  if cs.head? = some '+' then parseNatCore bound cs.tail
  else parseNatCore bound cs

/-- Embedding of `str::parse::<usize>` as used by `Into<SubKeySeq> for &str`. -/
def parseUsize (cs : List Char) : Option Nat :=
  parseNatBounded usizeMax cs

/-- Tokenizer: the embedding of
`self.split(&['.', '[', ']'][..]).filter(|a| !a.is_empty())`
(src/key.rs, `Into<SubKeySeq> for &str`), fused into one accumulator
pass so that it is structurally recursive.  `acc` is the (delimiter
free) portion of the current token read so far. -/
def tokAux : List Char → List Char → List (List Char)
  | [], acc => if acc = [] then [] else [acc]
  | c :: cs, acc =>
    if isKeyDelim c then
      if acc = [] then tokAux cs [] else acc :: tokAux cs []
    else tokAux cs (acc ++ [c])

def tokens (cs : List Char) : List (List Char) := tokAux cs []

/-- Classification of one token: `Ok(v) => SubKey::Int(v)`,
`_ => SubKey::Str(f)` (src/key.rs lines 91-94). -/
def classifyTok (t : List Char) : SubKey :=
  match parseUsize t with
  | some v => SubKey.Int v
  | none => SubKey.Str t

/-- Embedding of `Into<SubKeySeq> for &str`: split a raw key string into segments. -/
def subKeysOf (cs : List Char) : List SubKey :=
  (tokens cs).map classifyTok

/-- Appending the canonical rendering of one segment to the canonical
string built so far: the embedding of the rendering in `KeyNode::new`
and `HashKey::push` (src/key.rs): an index renders as `[i]` with no
preceding dot, a name is preceded by `.` unless the string is empty. -/
def renderSub (acc : List Char) (k : SubKey) : List Char :=
  match k with
  | SubKey.Str s => if acc = [] then acc ++ s else acc ++ '.' :: s
  | SubKey.Int i => acc ++ '[' :: (natChars i ++ [']'])

/-- Canonical string of a segment sequence (pushed onto an empty key). -/
def renderKey (ks : List SubKey) : List Char :=
  ks.foldl renderSub []

/-- Embedding of `normalize_key` (src/key.rs lines 198-202): push the raw string
onto an empty key and read the canonical string back. -/
def normalizeKey (s : String) : String :=
  ⟨renderKey (subKeysOf s.data)⟩

example : normalizeKey "a.0.b" = "a[0].b" := by decide
example : normalizeKey "a[0].b" = "a[0].b" := by decide
example : normalizeKey "" = "" := by decide
example : normalizeKey "." = "" := by decide
example : normalizeKey "[" = "" := by decide
example : normalizeKey "[0]prefix.prop" = "[0].prefix.prop" := by decide
example : normalizeKey "1[1]" = "[1][1]" := by decide

/-! ### Round-trip lemmas for the key model -/

lemma digitChar_spec (d : Nat) (h : d < 10) :
    (digitChar d).isDigit = true ∧ isKeyDelim (digitChar d) = false ∧
      (digitChar d).toNat = 48 + d ∧ digitChar d ≠ '+' := by
  interval_cases d <;> refine ⟨by decide, by decide, by decide, by decide⟩

lemma natCharsAux_congr :
    ∀ f₁ f₂ n, n < f₁ → n < f₂ → natCharsAux f₁ n = natCharsAux f₂ n := by
  intro f₁
  induction f₁ with
  | zero => intro f₂ n h; omega
  | succ g₁ ih =>
    intro f₂ n h₁ h₂
    cases f₂ with
    | zero => omega
    | succ g₂ =>
      by_cases hn : n < 10
      · simp [natCharsAux, hn]
      · have hdiv : n / 10 < n := Nat.div_lt_self (by omega) (by omega)
        rw [show natCharsAux (g₁ + 1) n
            = natCharsAux g₁ (n / 10) ++ [digitChar (n % 10)] by
              rw [natCharsAux]; rw [if_neg hn],
          show natCharsAux (g₂ + 1) n
            = natCharsAux g₂ (n / 10) ++ [digitChar (n % 10)] by
              rw [natCharsAux]; rw [if_neg hn],
          ih g₂ (n / 10) (by omega) (by omega)]

lemma natChars_unfold (n : Nat) (h : ¬ n < 10) :
    natChars n = natChars (n / 10) ++ [digitChar (n % 10)] := by
  have hdiv : n / 10 < n := Nat.div_lt_self (by omega) (by omega)
  show natCharsAux (n + 1) n = natCharsAux (n / 10 + 1) (n / 10) ++ [digitChar (n % 10)]
  rw [natCharsAux]; rw [if_neg h,
    natCharsAux_congr n (n / 10 + 1) (n / 10) (by omega) (by omega)]

lemma natChars_wf (n : Nat) :
    natChars n ≠ [] ∧ ∀ c ∈ natChars n, c.isDigit = true ∧ isKeyDelim c = false := by
  induction n using Nat.strong_induction_on with
  | _ n ih =>
    by_cases hn : n < 10
    · have := digitChar_spec n hn
      simp [natChars, natCharsAux, hn]
      exact ⟨this.1, this.2.1⟩
    · rw [natChars_unfold n hn]
      have hdiv : n / 10 < n := Nat.div_lt_self (by omega) (by omega)
      have hmod := digitChar_spec (n % 10) (Nat.mod_lt _ (by omega))
      refine ⟨by simp, ?_⟩
      intro c hc
      rcases List.mem_append.1 hc with hc | hc
      · exact (ih _ hdiv).2 c hc
      · simp only [List.mem_singleton] at hc
        subst hc
        exact ⟨hmod.1, hmod.2.1⟩

lemma digitsVal_append_one (xs : List Char) (c : Char) :
    digitsVal (xs ++ [c]) = digitsVal xs * 10 + (c.toNat - 48) := by
  simp [digitsVal, List.foldl_append]

lemma digitsVal_natChars (n : Nat) : digitsVal (natChars n) = n := by
  induction n using Nat.strong_induction_on with
  | _ n ih =>
    by_cases hn : n < 10
    · have := digitChar_spec n hn
      simp [natChars, natCharsAux, hn, digitsVal, this.2.2.1]
    · rw [natChars_unfold n hn, digitsVal_append_one,
        ih (n / 10) (Nat.div_lt_self (by omega) (by omega)),
        (digitChar_spec (n % 10) (Nat.mod_lt _ (by omega))).2.2.1]
      omega

lemma parseUsize_natChars (n : Nat) (h : n ≤ usizeMax) :
    parseUsize (natChars n) = some n := by
  have hwf := natChars_wf n
  have hhead : ¬ (natChars n).head? = some '+' := by
    cases hcs : natChars n with
    | nil => simp
    | cons c cs =>
      have hc := (hwf.2 c (by rw [hcs]; exact List.mem_cons_self _ _)).1
      simp only [List.head?_cons, Option.some.injEq]
      intro hplus; subst hplus; exact absurd hc (by decide)
  have hall : (natChars n).all Char.isDigit = true := by
    rw [List.all_eq_true]; intro c hc; exact (hwf.2 c hc).1
  unfold parseUsize parseNatBounded
  rw [if_neg hhead]
  unfold parseNatCore
  rw [if_pos ⟨hwf.1, hall⟩, digitsVal_natChars, if_pos h]

lemma parseNatBounded_le {bound n : Nat} {cs : List Char}
    (h : parseNatBounded bound cs = some n) : n ≤ bound := by
  unfold parseNatBounded parseNatCore at h
  split at h
  · split at h
    · split at h
      · simp only [Option.some.injEq] at h; omega
      · exact absurd h (by simp)
    · exact absurd h (by simp)
  · split at h
    · split at h
      · simp only [Option.some.injEq] at h; omega
      · exact absurd h (by simp)
    · exact absurd h (by simp)

/-- The canonical string of a well-formed token list for a `Str`
segment, and the decimal digits for an `Int` segment. -/
def tokStr (k : SubKey) : List Char :=
  match k with
  | SubKey.Str t => t
  | SubKey.Int n => natChars n

/-- A segment as produced by `subKeysOf`: `Str` tokens are nonempty,
contain no delimiter, and do not parse as `usize`; `Int` values fit. -/
def goodSub (k : SubKey) : Prop :=
  match k with
  | SubKey.Str t => t ≠ [] ∧ (∀ c ∈ t, isKeyDelim c = false) ∧ parseUsize t = none
  | SubKey.Int n => n ≤ usizeMax

lemma classifyTok_tokStr {k : SubKey} (h : goodSub k) :
    classifyTok (tokStr k) = k := by
  cases k with
  | Str t =>
    simp only [goodSub] at h
    simp [tokStr, classifyTok, h.2.2]
  | Int n =>
    simp only [goodSub] at h
    simp [tokStr, classifyTok, parseUsize_natChars n h]

lemma tokAux_append_delim :
    ∀ (a b : List Char) (acc : List Char),
      (b = [] ∨ ∃ d b', b = d :: b' ∧ isKeyDelim d = true) →
      tokAux (a ++ b) acc = tokAux a acc ++ tokens b := by
  intro a
  induction a with
  | nil =>
    intro b acc hb
    rcases hb with rfl | ⟨d, b', rfl, hd⟩
    · simp [tokens, tokAux]
    · by_cases hacc : acc = [] <;>
        simp [tokens, tokAux, hd, hacc]
  | cons c a' ih =>
    intro b acc hb
    by_cases hc : isKeyDelim c
    · by_cases hacc : acc = [] <;>
        simp [tokAux, hc, hacc, ih b [] hb]
    · simp [tokAux, hc, ih b (acc ++ [c]) hb]

lemma tokens_append_delim (a b : List Char)
    (hb : b = [] ∨ ∃ d b', b = d :: b' ∧ isKeyDelim d = true) :
    tokens (a ++ b) = tokens a ++ tokens b :=
  tokAux_append_delim a b [] hb

lemma tokAux_no_delim :
    ∀ (t acc : List Char), (∀ c ∈ t, isKeyDelim c = false) →
      tokAux t acc = if acc ++ t = [] then [] else [acc ++ t] := by
  intro t
  induction t with
  | nil => intro acc _; simp [tokAux]
  | cons c t' ih =>
    intro acc h
    have hc : isKeyDelim c = false := h c (List.mem_cons_self _ _)
    have ht' : ∀ d ∈ t', isKeyDelim d = false := fun d hd => h d (List.mem_cons_of_mem _ hd)
    simp only [tokAux, hc, Bool.false_eq_true, if_false, ih (acc ++ [c]) ht']
    simp

lemma tokens_no_delim (t : List Char) (h1 : t ≠ [])
    (h2 : ∀ c ∈ t, isKeyDelim c = false) : tokens t = [t] := by
  simp [tokens, tokAux_no_delim t [] h2, h1]

lemma tokAux_mem_wf :
    ∀ (cs acc : List Char), (∀ c ∈ acc, isKeyDelim c = false) →
      ∀ t ∈ tokAux cs acc, t ≠ [] ∧ ∀ c ∈ t, isKeyDelim c = false := by
  intro cs
  induction cs with
  | nil =>
    intro acc hacc t ht
    simp only [tokAux] at ht
    split at ht
    · simp at ht
    · simp only [List.mem_singleton] at ht
      subst ht
      exact ⟨by assumption, hacc⟩
  | cons c cs' ih =>
    intro acc hacc t ht
    simp only [tokAux] at ht
    split at ht
    · split at ht
      · exact ih [] (by simp) t ht
      · rcases List.mem_cons.1 ht with rfl | ht
        · exact ⟨by assumption, hacc⟩
        · exact ih [] (by simp) t ht
    · refine ih (acc ++ [c]) ?_ t ht
      intro d hd
      rcases List.mem_append.1 hd with hd | hd
      · exact hacc d hd
      · simp only [List.mem_singleton] at hd
        subst hd
        simp only [Bool.not_eq_true] at *
        assumption

lemma subKeysOf_good (cs : List Char) : ∀ k ∈ subKeysOf cs, goodSub k := by
  intro k hk
  simp only [subKeysOf, List.mem_map] at hk
  obtain ⟨t, ht, rfl⟩ := hk
  have hwf := tokAux_mem_wf cs [] (by simp) t ht
  unfold classifyTok
  cases hp : parseUsize t with
  | none => exact ⟨hwf.1, hwf.2, hp⟩
  | some v => exact parseNatBounded_le hp

/-- Rendering of a non-initial segment (always preceded by its
delimiter: `.` for names, `[` for indices). -/
def rendRest (k : SubKey) : List Char :=
  match k with
  | SubKey.Str t => '.' :: t
  | SubKey.Int n => '[' :: (natChars n ++ [']'])

/-- Rendering of the initial segment (no leading dot). -/
def rendFirst (k : SubKey) : List Char :=
  match k with
  | SubKey.Str t => t
  | SubKey.Int n => '[' :: (natChars n ++ [']'])

lemma foldl_renderSub_ne_nil :
    ∀ (ks : List SubKey) (acc : List Char), acc ≠ [] →
      List.foldl renderSub acc ks = acc ++ ks.flatMap rendRest := by
  intro ks
  induction ks with
  | nil => intro acc _; simp
  | cons k ks' ih =>
    intro acc hacc
    have hstep : renderSub acc k = acc ++ rendRest k := by
      cases k with
      | Str t => simp [renderSub, rendRest, hacc]
      | Int n => simp [renderSub, rendRest]
    rw [List.foldl_cons, hstep, ih (acc ++ rendRest k) (by simp [hacc]),
      List.flatMap_cons, List.append_assoc]

lemma renderKey_cons (k : SubKey) (ks : List SubKey) (h : goodSub k) :
    renderKey (k :: ks) = rendFirst k ++ ks.flatMap rendRest := by
  have hfirst : renderSub [] k = rendFirst k := by
    cases k with
    | Str t => simp [renderSub, rendFirst]
    | Int n => simp [renderSub, rendFirst]
  have hne : rendFirst k ≠ [] := by
    cases k with
    | Str t => exact h.1
    | Int n => simp [rendFirst]
  simp only [renderKey, List.foldl_cons, hfirst, foldl_renderSub_ne_nil ks _ hne]

lemma tokens_rendFirst (k : SubKey) (h : goodSub k) :
    tokens (rendFirst k) = [tokStr k] := by
  cases k with
  | Str t => exact tokens_no_delim t h.1 h.2.1
  | Int n =>
    have hwf := natChars_wf n
    have hdelim : isKeyDelim ']' = true := by decide
    have hbr : isKeyDelim '[' = true := by decide
    show tokens ('[' :: (natChars n ++ [']'])) = [natChars n]
    have h1 : tokens ('[' :: (natChars n ++ [']'])) = tokens (natChars n ++ [']']) := by
      simp [tokens, tokAux, hbr]
    have h2 : tokens [']'] = [] := by simp [tokens, tokAux, hdelim]
    rw [h1, tokens_append_delim (natChars n) [']'] (Or.inr ⟨']', [], rfl, hdelim⟩),
      tokens_no_delim (natChars n) hwf.1 (fun c hc => (hwf.2 c hc).2), h2,
      List.append_nil]

lemma tokens_rendRest (k : SubKey) (h : goodSub k) :
    tokens (rendRest k) = [tokStr k] := by
  cases k with
  | Str t =>
    have hdot : isKeyDelim '.' = true := by decide
    have : tokens ('.' :: t) = tokens t := by simp [tokens, tokAux, hdot]
    rw [show rendRest (SubKey.Str t) = '.' :: t from rfl, this]
    exact tokens_no_delim t h.1 h.2.1
  | Int n => exact tokens_rendFirst (SubKey.Int n) h

lemma bind_rendRest_head (ks : List SubKey) :
    ks.flatMap rendRest = [] ∨
      ∃ d b', ks.flatMap rendRest = d :: b' ∧ isKeyDelim d = true := by
  cases ks with
  | nil => exact Or.inl rfl
  | cons k ks' =>
    refine Or.inr ?_
    cases k with
    | Str t =>
      exact ⟨'.', t ++ ks'.flatMap rendRest,
        by simp [rendRest, List.flatMap_cons], by decide⟩
    | Int n =>
      exact ⟨'[', (natChars n ++ [']']) ++ ks'.flatMap rendRest,
        by simp [rendRest, List.flatMap_cons], by decide⟩

lemma tokens_bind_rendRest :
    ∀ (ks : List SubKey), (∀ k ∈ ks, goodSub k) →
      tokens (ks.flatMap rendRest) = ks.map tokStr := by
  intro ks
  induction ks with
  | nil => intro _; simp [tokens, tokAux]
  | cons k ks' ih =>
    intro h
    have hk := h k (List.mem_cons_self _ _)
    have hks' : ∀ j ∈ ks', goodSub j := fun j hj => h j (List.mem_cons_of_mem _ hj)
    have : (k :: ks').flatMap rendRest = rendRest k ++ ks'.flatMap rendRest := by
      simp [List.flatMap_cons]
    rw [this, tokens_append_delim _ _ (bind_rendRest_head ks'),
      tokens_rendRest k hk, ih hks']
    simp

lemma map_classify_tokStr :
    ∀ (ks : List SubKey), (∀ k ∈ ks, goodSub k) →
      ks.map (fun k => classifyTok (tokStr k)) = ks := by
  intro ks
  induction ks with
  | nil => intro _; simp
  | cons k ks' ih =>
    intro h
    simp only [List.map_cons, classifyTok_tokStr (h k (List.mem_cons_self _ _)),
      ih (fun j hj => h j (List.mem_cons_of_mem _ hj))]

lemma subKeysOf_renderKey :
    ∀ (ks : List SubKey), (∀ k ∈ ks, goodSub k) →
      subKeysOf (renderKey ks) = ks := by
  intro ks h
  cases ks with
  | nil => simp [renderKey, subKeysOf, tokens, tokAux]
  | cons k ks' =>
    have hk := h k (List.mem_cons_self _ _)
    have hks' : ∀ j ∈ ks', goodSub j := fun j hj => h j (List.mem_cons_of_mem _ hj)
    rw [renderKey_cons k ks' hk]
    unfold subKeysOf
    rw [tokens_append_delim _ _ (bind_rendRest_head ks'), tokens_rendFirst k hk,
      tokens_bind_rendRest ks' hks']
    simp only [List.singleton_append, List.map_cons, List.map_map]
    rw [classifyTok_tokStr hk,
      show (classifyTok ∘ tokStr) = fun j => classifyTok (tokStr j) from rfl,
      map_classify_tokStr ks' hks']

lemma normalizeKey_idem (s : String) :
    normalizeKey (normalizeKey s) = normalizeKey s := by
  show (⟨renderKey (subKeysOf (normalizeKey s).data)⟩ : String) = normalizeKey s
  have hdata : (normalizeKey s).data = renderKey (subKeysOf s.data) := rfl
  rw [hdata, subKeysOf_renderKey (subKeysOf s.data) (subKeysOf_good s.data)]
  rfl

/-! ## Errors and scalars (src/err.rs, src/value.rs)

`CfgError` embeds `ConfigError`; the boxed cause of `ConfigCause` is
modelled by a message string and `PathBuf` by its display string.
`CfgValue` embeds `ConfigValue` (both string variants collapse to one;
`Float` and `Rand` are omitted, no claim involves them). -/

inductive CfgError where
  | configNotFound (k : String)
  | configRecursiveNotFound (k : String)
  | configTypeMismatch (k : String) (found : String) (requested : String)
  | configParseError (k : String) (v : String)
  | configRecursiveError (k : String)
  | configFileNotExists (path : String)
  | configFileNotSupported (path : String)
  | refValueRecursiveError
  | tooManyInstances (n : Nat)
  | lockPoisoned
  | configCause (msg : String)
deriving DecidableEq, Repr

inductive CfgValue where
  | str (s : String)
  | int (i : Int)
  | bool (b : Bool)
deriving DecidableEq, Repr

instance exceptDecEq {ε α : Type} [DecidableEq ε] [DecidableEq α] :
    DecidableEq (Except ε α) := fun a b =>
  match a, b with
  | Except.ok x, Except.ok y =>
    if h : x = y then Decidable.isTrue (by rw [h])
    else Decidable.isFalse (by intro hc; cases hc; exact h rfl)
  | Except.error e, Except.error f =>
    if h : e = f then Decidable.isTrue (by rw [h])
    else Decidable.isFalse (by intro hc; cases hc; exact h rfl)
  | Except.ok _, Except.error _ => Decidable.isFalse (fun hc => Except.noConfusion hc)
  | Except.error _, Except.ok _ => Decidable.isFalse (fun hc => Except.noConfusion hc)

/-! ## The merged store (src/source/memory.rs)

`HashValue` and the `HashMap<String, HashValue>` of `HashSource`,
modelled as an association list keyed by canonical key string. -/

structure HashValue where
  subStr : List String
  subInt : Option Nat
  value : Option CfgValue
deriving DecidableEq, Repr

def HashValue.new : HashValue := ⟨[], none, none⟩

/-- Embedding of `HashValue::push_val`: sets the scalar only if it is unset. -/
def HashValue.pushVal (hv : HashValue) (v : CfgValue) : HashValue :=
  if hv.value = none then { hv with value := some v } else hv

/-- Embedding of `HashSet::insert` on a duplicate-free list. -/
def insertSet (l : List String) (s : String) : List String :=
  if s ∈ l then l else l ++ [s]

/-- Embedding of `HashValue::push_key`: a name child joins the name set; an index
child raises the recorded maximum index (`get_or_insert` then max). -/
def HashValue.pushKey (hv : HashValue) (k : SubKey) : HashValue :=
  match k with
  | SubKey.Str s => { hv with subStr := insertSet hv.subStr ⟨s⟩ }
  | SubKey.Int i =>
    { hv with
      subInt := some (match hv.subInt with
        | none => i
        | some v => if v < i then i else v) }

abbrev Store := List (String × HashValue)

/-- Embedding of `map.entry(k).or_insert_with(HashValue::new)` followed by a
modification of the entry. -/
def updateStore : Store → String → (HashValue → HashValue) → Store
  | [], k, f => [(k, f HashValue.new)]
  | (k', v) :: rest, k, f =>
    if k' = k then (k', f v) :: rest else (k', v) :: updateStore rest k f

def storeFind : Store → String → Option HashValue
  | [], _ => none
  | (k', v) :: rest, k => if k' = k then some v else storeFind rest k

/-- Embedding of `HashSource::get_value` (the `StrRef`/`Str` borrowing distinction
disappears in the model). -/
def storeGetValue (m : Store) (k : String) : Option CfgValue :=
  (storeFind m k).bind (fun hv => hv.value)

/-- The walk of `ConfigSourceBuilder::push`: for every segment of the
raw key, register the segment as a child of the node at the canonical
key built so far, then extend the canonical key (`update_string`, whose
rendering is `renderSub`).  Returns the updated map and the final
canonical key. -/
def pushCrossings : Store → List Char → List SubKey → Store × List Char
  | m, curr, [] => (m, curr)
  | m, curr, k :: ks =>
    pushCrossings (updateStore m ⟨curr⟩ (fun hv => hv.pushKey k)) (renderSub curr k) ks

/-- Embedding of `ConfigSourceBuilder::set` = `push`, `insert`, `pop`: walk the raw
key registering children, then set the scalar, first wins. -/
def builderSet (m : Store) (raw : String) (v : CfgValue) : Store :=
  let p := pushCrossings m [] (subKeysOf raw.data)
  updateStore p.1 ⟨p.2⟩ (fun hv => hv.pushVal v)

/-- Embedding of `ConfigSource::load` of a source reduced to its `(key, scalar)`
insertions (the shape every source loader reduces to, see
`HashSource::load`). -/
def loadSource (m : Store) (src : List (String × CfgValue)) : Store :=
  src.foldl (fun m kv => builderSet m kv.1 kv.2) m

/-- Embedding of `Configuration::register_source` for each source in registration
order, starting from the empty configuration. -/
def mergeAll (sources : List (List (String × CfgValue))) : Store :=
  sources.foldl loadSource []

/-! ## Typed converters (src/value.rs)

The `FromConfig for V: FromValue` blanket impl, with the two
instantiations the claims need (`String`, `bool`, `u8`). -/

/-- The blanket `FromConfig for V: FromValue`: absent value is
not-found, empty string goes to `empty_value`, otherwise `from_value`.
-/
def fromConfigFV {α : Type} (emptyV : String → Except CfgError α)
    (fromVal : String → CfgValue → Except CfgError α)
    (ck : String) (v : Option CfgValue) : Except CfgError α :=
  match v with
  | none => Except.error (CfgError.configNotFound ck)
  | some (CfgValue.str s) => if s = "" then emptyV ck else fromVal ck (CfgValue.str s)
  | some w => fromVal ck w

/-- The default `FromValue::empty_value`: `Err(context.not_found())`. -/
def defaultEmptyValue {α : Type} (ck : String) : Except CfgError α :=
  Except.error (CfgError.configNotFound ck)

/-- Embedding of `String::empty_value`: `Ok("")`. -/
def stringEmptyValue (_ : String) : Except CfgError String := Except.ok ""

/-- Embedding of `i64::to_string` for scalar-to-string conversion. -/
def intRepr (i : Int) : String :=
  match i with
  | Int.ofNat n => ⟨natChars n⟩
  | Int.negSucc n => ⟨'-' :: natChars (n + 1)⟩

/-- Embedding of `FromValue for String`, `from_value`. -/
def stringFromValue (_ : String) (v : CfgValue) : Except CfgError String :=
  match v with
  | CfgValue.str s => Except.ok s
  | CfgValue.int i => Except.ok (intRepr i)
  | CfgValue.bool b => Except.ok (if b then "true" else "false")

def stringFromConfig : String → Option CfgValue → Except CfgError String :=
  fromConfigFV stringEmptyValue stringFromValue

/-! ## The placeholder resolution engine (src/configuration.rs)

`ConfigContext::parse_placeholder` and `do_parse_config` are mutually
recursive; they are embedded as one function `resolve` over a request
type, with an explicit structurally decreasing fuel argument.  The
`Req.scan` case is the `while let Some(pos) = value.find(pat)` loop of
`parse_placeholder` (`value` the unscanned input, `buf` the output
buffer `cv.buf`, `stack` the expression-start stack `cv.stack`, `flag`
the fast-path flag); the `Req.keyed` case is `do_parse_config` up to
(but not including) `T::from_config`, for a fresh context whose
canonical current key is `ck`.  The history set (`&mut
HashSet<String>`) is threaded through and returned.

Buffer offsets are character counts; the source counts bytes, which
agrees on ASCII data (all the claims' inputs are ASCII). -/

def isPat (c : Char) : Bool := c = '$' || c = '\\' || c = '\x7d'

inductive Req where
  | scan (ck : String) (val0 : String) (value : List Char) (buf : List Char)
      (stack : List Nat) (flag : Bool)
  | keyed (ck : String) (dfl : Option CfgValue)

/-- Result alias: a `scan` request answers in `Sum.inl` with the fast
path flag and the optionally rebuilt string; a `keyed` request answers
in `Sum.inr` with the resolved raw value (before `T::from_config`). -/
abbrev ROut := Except CfgError (Sum (Bool × Option String) (Option CfgValue)) × List String

/-- The text copied into the output buffer before the next special
character (`&value[..pos]`). -/
def scanPre (value : List Char) : List Char :=
  value.takeWhile (fun c => !isPat c)

/-- The expression body: the output buffer content from the popped
expression-start marker onwards (`&(cv.buf.as_str())[last..]`, after
`cv.buf.push_str(&value[..pos])`). -/
def bodyAt (buf value : List Char) (last : Nat) : List Char :=
  (buf ++ scanPre value).drop last

/-- The inner key: the body up to the first `:` (`v.find(':')`). -/
def keyOf (body : List Char) : String :=
  ⟨body.takeWhile (fun c => c ≠ ':')⟩

/-- The optional default: the body after the first `:`, when present. -/
def dflOf (body : List Char) : Option (List Char) :=
  match body.dropWhile (fun c => c ≠ ':') with
  | [] => none
  | _ :: d => some d

def resolve (src : Store) : Nat → Req → List String → ROut
  | 0, _, history => (Except.error (CfgError.configCause "fuel"), history)
  | fuel + 1, Req.scan ck val0 value buf stack flag, history =>
    match value.dropWhile (fun c => !isPat c) with
    | [] =>
      if flag then (Except.ok (Sum.inl (true, none)), history)
      else if stack = [] then
        (Except.ok (Sum.inl (false, some ⟨buf ++ value⟩)), history)
      else (Except.error (CfgError.configParseError ck val0), history)
    | c :: rest =>
      if c = '$' then
        match rest with
        | '\x7b' :: rest2 =>
          resolve src fuel
            (Req.scan ck val0 rest2 (buf ++ scanPre value)
              ((buf ++ scanPre value).length :: stack) false)
            history
        | _ => (Except.error (CfgError.configParseError ck val0), history)
      else if c = '\\' then
        match rest with
        | d :: rest2 =>
          resolve src fuel
            (Req.scan ck val0 rest2 (buf ++ scanPre value ++ [d]) stack false) history
        | [] => (Except.error (CfgError.configParseError ck val0), history)
      else
        match stack with
        | [] => (Except.error (CfgError.configParseError ck val0), history)
        | last :: stack2 =>
          if keyOf (bodyAt buf value last) ∈ history then
            (Except.error (CfgError.configRecursiveError ck), history)
          else
            match resolve src fuel
                (Req.keyed (normalizeKey (keyOf (bodyAt buf value last))) none)
                (keyOf (bodyAt buf value last) :: history) with
            | (Except.ok (Sum.inr v'), h2) =>
              match stringFromConfig (normalizeKey (keyOf (bodyAt buf value last))) v' with
              | Except.ok v =>
                resolve src fuel
                  (Req.scan ck val0 rest
                    ((buf ++ scanPre value).take last ++ v.data) stack2 false)
                  (h2.erase (keyOf (bodyAt buf value last)))
              | Except.error (CfgError.configNotFound nf) =>
                match dflOf (bodyAt buf value last) with
                | some d =>
                  resolve src fuel
                    (Req.scan ck val0 rest
                      ((buf ++ scanPre value).take last ++ d) stack2 false)
                    (h2.erase (keyOf (bodyAt buf value last)))
                | none => (Except.error (CfgError.configRecursiveNotFound nf), h2)
              | Except.error e => (Except.error e, h2)
            | (Except.error e, h2) => (Except.error e, h2)
            | (Except.ok (Sum.inl _), h2) => (Except.error (CfgError.configCause "ill"), h2)
  | fuel + 1, Req.keyed ck dfl, history =>
    match (storeGetValue src ck).or dfl with
    | some (CfgValue.str s) =>
      match resolve src fuel (Req.scan ck s s.data [] [] true) history with
      | (Except.ok (Sum.inl (true, _)), h2) =>
        (Except.ok (Sum.inr (some (CfgValue.str s))), h2)
      | (Except.ok (Sum.inl (false, v)), h2) =>
        (Except.ok (Sum.inr (v.map CfgValue.str)), h2)
      | (Except.error e, h2) => (Except.error e, h2)
      | (Except.ok (Sum.inr _), h2) => (Except.error (CfgError.configCause "ill"), h2)
    | v => (Except.ok (Sum.inr v), history)

/-- Embedding of `do_parse_config` before `T::from_config`: the resolved raw value
at canonical key `ck` (with optional default), plus final history. -/
def doParseValue (fuel : Nat) (src : Store) (ck : String) (dfl : Option CfgValue)
    (history : List String) : Except CfgError (Option CfgValue) × List String :=
  match resolve src fuel (Req.keyed ck dfl) history with
  | (Except.ok (Sum.inr v), h) => (Except.ok v, h)
  | (Except.error e, h) => (Except.error e, h)
  | (Except.ok (Sum.inl _), h) => (Except.error (CfgError.configCause "ill"), h)

/-- Embedding of `do_parse_config::<String>` at canonical key `ck`. -/
def doParseString (fuel : Nat) (src : Store) (ck : String)
    (history : List String) : Except CfgError String × List String :=
  let r := doParseValue fuel src ck none history
  (match r.1 with
   | Except.ok v => stringFromConfig ck v
   | Except.error e => Except.error e, r.2)

/-- Embedding of `Configuration::get::<String>` (fresh context, fresh history). -/
def cfgGetString (fuel : Nat) (src : Store) (key : String) : Except CfgError String :=
  (doParseString fuel src (normalizeKey key) []).1

/-- Helper: a list of string-valued pairs as source insertions. -/
def strKVs (l : List (String × String)) : List (String × CfgValue) :=
  l.map (fun kv => (kv.1, CfgValue.str kv.2))

/-- The 18-key store of spec section 8 (also the store of the
`parse_string_test` test in src/configuration.rs). -/
def specStore : Store :=
  loadSource []
    (strKVs
      [("a", "0"),
       ("b", "$\x7bb\x7d"),
       ("c", "$\x7ba\x7d"),
       ("d", "$\x7bz\x7d"),
       ("e", "$\x7bz:\x7d"),
       ("f", "$\x7bz:$\x7ba\x7d\x7d"),
       ("g", "a"),
       ("h", "$\x7b$\x7bg\x7d\x7d"),
       ("i", "\\$\\\x7ba\\\x7d"),
       ("j", "$\x7b$\x7bg\x7d:a\x7d"),
       ("k", "$\x7ba\x7d $\x7ba\x7d"),
       ("l", "$\x7bc\x7d"),
       ("m", "$\x7bno_found:$\x7bno_found_2:hello\x7d\x7d"),
       ("n", "$"),
       ("o", "\\"),
       ("p", "\x7d"),
       ("q", "$\x7b"),
       ("r", "$\x7ba\x7dsuffix")])

/-- C1: for the 18-key store of spec section 8, resolving each key as a
String through `Configuration::get` yields exactly the listed outcome:
`a`, `c`, `e`, `f`, `g`, `h`, `i`, `j`, `k`, `l`, `m`, `r` succeed with
the listed strings (`i` yielding the literal text of an escaped
placeholder), `b` fails with the cycle error, `d` fails with the
recursive-not-found error naming `z`, and `n`, `o`, `p`, `q` fail with
parse errors. -/
theorem c1_spec_store_resolution :
    cfgGetString 100 specStore "a" = Except.ok "0"
    ∧ cfgGetString 100 specStore "b" = Except.error (CfgError.configRecursiveError "b")
    ∧ cfgGetString 100 specStore "c" = Except.ok "0"
    ∧ cfgGetString 100 specStore "d" = Except.error (CfgError.configRecursiveNotFound "z")
    ∧ cfgGetString 100 specStore "e" = Except.ok ""
    ∧ cfgGetString 100 specStore "f" = Except.ok "0"
    ∧ cfgGetString 100 specStore "g" = Except.ok "a"
    ∧ cfgGetString 100 specStore "h" = Except.ok "0"
    ∧ cfgGetString 100 specStore "i" = Except.ok "$\x7ba\x7d"
    ∧ cfgGetString 100 specStore "j" = Except.ok "0"
    ∧ cfgGetString 100 specStore "k" = Except.ok "0 0"
    ∧ cfgGetString 100 specStore "l" = Except.ok "0"
    ∧ cfgGetString 100 specStore "m" = Except.ok "hello"
    ∧ cfgGetString 100 specStore "n" = Except.error (CfgError.configParseError "n" "$")
    ∧ cfgGetString 100 specStore "o" = Except.error (CfgError.configParseError "o" "\\")
    ∧ cfgGetString 100 specStore "p" = Except.error (CfgError.configParseError "p" "\x7d")
    ∧ cfgGetString 100 specStore "q" = Except.error (CfgError.configParseError "q" "$\x7b")
    ∧ cfgGetString 100 specStore "r" = Except.ok "0suffix" := by
  decide

/-! ### General lemmas about the resolver -/

/-- Results that leave the history untouched on every code path: a
success, or a plain not-found (which `do_parse_config` reports without
ever having touched the history). -/
def okOrNF {β : Type} : Except CfgError β → Prop
  | Except.ok _ => True
  | Except.error (CfgError.configNotFound _) => True
  | Except.error _ => False

lemma resolve_pair_ne_nf {f : Nat}
    (ih : ∀ (src : Store) (req : Req) (hist : List String) (k : String),
      (resolve src f req hist).1 ≠ Except.error (CfgError.configNotFound k))
    {src : Store} {req : Req} {hist : List String} {e : CfgError} {h2 : List String}
    (heq : resolve src f req hist = (Except.error e, h2)) (k : String) :
    e ≠ CfgError.configNotFound k := by
  intro hc
  have h3 := ih src req hist k
  rw [heq, hc] at h3
  exact h3 rfl

/-- The resolver never surfaces a raw `ConfigNotFound` error: every
not-found arising inside placeholder resolution is caught at the
enclosing `}` and converted to a default or a `ConfigRecursiveNotFound`,
and `Req.keyed` reports absence as a successful `none` value. -/
lemma resolve_ne_notFound :
    ∀ (fuel : Nat) (src : Store) (req : Req) (hist : List String) (k : String),
      (resolve src fuel req hist).1 ≠ Except.error (CfgError.configNotFound k) := by
  intro fuel
  induction fuel with
  | zero => intro src req hist k; simp [resolve]
  | succ f ih =>
    intro src req hist k
    cases req with
    | scan ck val0 value buf stack flag =>
      rw [resolve]
      split
      · split
        · simp
        · split <;> simp
      · split
        · split
          · exact ih _ _ _ _
          · simp
        · split
          · split
            · exact ih _ _ _ _
            · simp
          · split
            · simp
            · split
              · simp
              · split
                · split
                  · exact ih _ _ _ _
                  · split
                    · exact ih _ _ _ _
                    · simp
                  · rename_i e hnotnf heq2
                    simp only [ne_eq, Prod.fst]
                    intro hc
                    injection hc with hc'
                    exact hnotnf k hc'
                · rename_i e h2 heq
                  simp only [ne_eq, Prod.fst]
                  intro hc
                  injection hc with hc'
                  exact resolve_pair_ne_nf ih heq k hc'
                · simp
    | keyed ck dfl =>
      rw [resolve]
      split
      · split
        · simp
        · simp
        · rename_i e h2 heq
          simp only [ne_eq, Prod.fst]
          intro hc
          injection hc with hc'
          exact resolve_pair_ne_nf ih heq k hc'
        · simp
      · simp

lemma resolve_pair_hist {f : Nat}
    (ih : ∀ (src : Store) (req : Req) (hist : List String),
      okOrNF (resolve src f req hist).1 → (resolve src f req hist).2 = hist)
    {src : Store} {req : Req} {hist : List String}
    {r : Except CfgError (Sum (Bool × Option String) (Option CfgValue))}
    {h2 : List String}
    (heq : resolve src f req hist = (r, h2)) (hok : okOrNF r) : h2 = hist := by
  have h4 := ih src req hist
  rw [heq] at h4
  exact h4 hok

/-- History restoration: whenever the resolver returns success or a
plain not-found, the history set it returns is exactly the one passed
in.  (On the success path every `}` removes its inserted inner key, and
the not-found path never inserted anything; the remaining error paths
may return a larger history, see the C6 counterexample.) -/
lemma resolve_history_restored :
    ∀ (fuel : Nat) (src : Store) (req : Req) (hist : List String),
      okOrNF (resolve src fuel req hist).1 → (resolve src fuel req hist).2 = hist := by
  intro fuel
  induction fuel with
  | zero => intro src req hist _; rfl
  | succ f ih =>
    intro src req hist
    cases req with
    | scan ck val0 value buf stack flag =>
      rw [resolve]
      split
      · split
        · intro _; rfl
        · split
          · intro _; rfl
          · intro _; rfl
      · split
        · split
          · exact ih _ _ _
          · intro _; rfl
        · split
          · split
            · exact ih _ _ _
            · intro _; rfl
          · split
            · intro _; rfl
            · rename_i last stack2
              split
              · intro _; rfl
              · split
                · rename_i v' h2 heq
                  have hh2 : h2 = keyOf (bodyAt buf value last) :: hist :=
                    resolve_pair_hist ih heq (by simp [okOrNF])
                  split
                  · intro hfin
                    rw [ih _ _ _ hfin, hh2, List.erase_cons_head]
                  · split
                    · intro hfin
                      rw [ih _ _ _ hfin, hh2, List.erase_cons_head]
                    · intro hfin
                      exact absurd hfin (by simp [okOrNF])
                  · rename_i e hnotnf heq2
                    intro hfin
                    simp only [Prod.fst] at hfin
                    cases e <;> simp [okOrNF] at hfin
                    rename_i a
                    exact absurd rfl (fun hc => hnotnf a hc)
                · rename_i e h2 heq
                  intro hfin
                  simp only [Prod.fst] at hfin
                  cases e <;> simp [okOrNF] at hfin
                  rename_i a
                  exact absurd rfl (resolve_pair_ne_nf (resolve_ne_notFound f) heq a)
                · intro hfin
                  exact absurd hfin (by simp [okOrNF])
    | keyed ck dfl =>
      rw [resolve]
      split
      · split
        · rename_i h2 heq
          intro _
          exact resolve_pair_hist ih heq (by simp [okOrNF])
        · rename_i v h2 heq
          intro _
          exact resolve_pair_hist ih heq (by simp [okOrNF])
        · rename_i e h2 heq
          intro hfin
          simp only [Prod.fst] at hfin
          cases e <;> simp [okOrNF] at hfin
          rename_i a
          exact absurd rfl (resolve_pair_ne_nf (resolve_ne_notFound f) heq a)
        · intro hfin
          exact absurd hfin (by simp [okOrNF])
      · intro _; rfl

lemma doParseValue_ne_notFound (fuel : Nat) (src : Store) (ck : String)
    (dfl : Option CfgValue) (hist : List String) (e : CfgError) (k : String)
    (h : (doParseValue fuel src ck dfl hist).1 = Except.error e) :
    e ≠ CfgError.configNotFound k := by
  unfold doParseValue at h
  split at h
  · simp at h
  · rename_i e' h2 heq
    simp only [Prod.fst] at h
    injection h with h'
    subst h'
    exact resolve_pair_ne_nf (resolve_ne_notFound fuel) heq k
  · rename_i h2 heq
    simp only [Prod.fst] at h
    injection h with h'
    subst h'
    simp

/-! ## Further typed converters and `Option` lookups (src/value.rs) -/

/-- Embedding of `FromConfig for Option<V>`: translate a not-found from the
underlying `V::from_config` into `Ok(None)`; propagate everything else.
-/
def optionFromConfig {α : Type} (r : Except CfgError α) : Except CfgError (Option α) :=
  match r with
  | Except.error (CfgError.configNotFound _) => Except.ok none
  | Except.error e => Except.error e
  | Except.ok v => Except.ok (some v)

/-- ASCII lowering (the claims' inputs are ASCII; Rust `to_lowercase`
agrees there). -/
def toLowerChar (c : Char) : Char :=
  if 'A' ≤ c ∧ c ≤ 'Z' then Char.ofNat (c.toNat + 32) else c

def toLowerStr (s : String) : String := ⟨s.data.map toLowerChar⟩

/-- Embedding of `FromValue for bool` (through `bool_from_str_value` for strings). -/
def boolFromValue (ck : String) (v : CfgValue) : Except CfgError Bool :=
  match v with
  | CfgValue.str s =>
    if toLowerStr s = "true" ∨ toLowerStr s = "yes" then Except.ok true
    else if toLowerStr s = "false" ∨ toLowerStr s = "no" then Except.ok false
    else Except.error (CfgError.configParseError ck s)
  | CfgValue.bool b => Except.ok b
  | CfgValue.int _ => Except.error (CfgError.configTypeMismatch ck "Integer" "bool")

def boolFromConfig : String → Option CfgValue → Except CfgError Bool :=
  fromConfigFV defaultEmptyValue boolFromValue

/-- Embedding of `FromValue for u8` (`str::parse::<u8>` / `u8::try_from(i64)`; the
boxed causes are modelled as messages). -/
def u8FromValue (ck : String) (v : CfgValue) : Except CfgError Nat :=
  match v with
  | CfgValue.str s =>
    match parseNatBounded 255 s.data with
    | some n => Except.ok n
    | none => Except.error (CfgError.configCause "ParseIntError")
  | CfgValue.int i =>
    if 0 ≤ i ∧ i ≤ 255 then Except.ok i.toNat
    else Except.error (CfgError.configCause "TryFromIntError")
  | CfgValue.bool _ => Except.error (CfgError.configTypeMismatch ck "Bool" "u8")

def u8FromConfig : String → Option CfgValue → Except CfgError Nat :=
  fromConfigFV defaultEmptyValue u8FromValue

/-- Embedding of `Configuration::get::<T>` for a converter `fromCfg`
(= `T::from_config` applied after value resolution). -/
def cfgGetWith {α : Type} (fromCfg : String → Option CfgValue → Except CfgError α)
    (fuel : Nat) (src : Store) (key : String) : Except CfgError α :=
  match (doParseValue fuel src (normalizeKey key) none []).1 with
  | Except.ok v => fromCfg (normalizeKey key) v
  | Except.error e => Except.error e

/-- Embedding of `Configuration::get::<Option<T>>`: the `Option` wrapping happens
around `T::from_config` only; value-resolution errors propagate before
it. -/
def cfgGetOptionWith {α : Type} (fromCfg : String → Option CfgValue → Except CfgError α)
    (fuel : Nat) (src : Store) (key : String) : Except CfgError (Option α) :=
  match (doParseValue fuel src (normalizeKey key) none []).1 with
  | Except.ok v => optionFromConfig (fromCfg (normalizeKey key) v)
  | Except.error e => Except.error e

def cfgGetBool : Nat → Store → String → Except CfgError Bool :=
  cfgGetWith boolFromConfig

def cfgGetU8 : Nat → Store → String → Except CfgError Nat :=
  cfgGetWith u8FromConfig

def cfgGetOptionBool : Nat → Store → String → Except CfgError (Option Bool) :=
  cfgGetOptionWith boolFromConfig

def cfgGetOptionU8 : Nat → Store → String → Except CfgError (Option Nat) :=
  cfgGetOptionWith u8FromConfig

/-- Composing: an `Option<T>` lookup is exactly `optionFromConfig` of
the `T` lookup (this needs that value resolution itself never surfaces
a raw not-found, `resolve_ne_notFound`). -/
lemma cfgGetOptionWith_compose {α : Type}
    (fromCfg : String → Option CfgValue → Except CfgError α)
    (fuel : Nat) (src : Store) (key : String) :
    cfgGetOptionWith fromCfg fuel src key
      = optionFromConfig (cfgGetWith fromCfg fuel src key) := by
  unfold cfgGetOptionWith cfgGetWith
  cases h : (doParseValue fuel src (normalizeKey key) none []).1 with
  | ok v => rfl
  | error e =>
    have hne := doParseValue_ne_notFound fuel src (normalizeKey key) none [] e
    cases e with
    | configNotFound k => exact absurd rfl (hne k h)
    | configRecursiveNotFound k => rfl
    | configTypeMismatch a b c => rfl
    | configParseError a b => rfl
    | configRecursiveError a => rfl
    | configFileNotExists p => rfl
    | configFileNotSupported p => rfl
    | refValueRecursiveError => rfl
    | tooManyInstances n => rfl
    | lockPoisoned => rfl
    | configCause m => rfl

/-! ## Claims C5, C6, C9, C10 -/

/-- The three-key chain `a -> b -> c -> b` used to refute C5. -/
def chainStore : Store :=
  loadSource [] (strKVs
    [("a", "$\x7bb\x7d"), ("b", "$\x7bc\x7d"), ("c", "$\x7bb\x7d")])

/-- C5 counterexample: resolving `a` over the chain `a="${b}"`,
`b="${c}"`, `c="${b}"` detects the cycle while resolving `c`, and the
cycle error names `"c"` — the key of the frame where the repetition was
detected — not the original top-level key `"a"` the claim requires. -/
theorem c5_counterexample :
    cfgGetString 100 chainStore "a"
      = Except.error (CfgError.configRecursiveError "c")
    ∧ ("c" : String) ≠ "a" := by
  decide

/-- C5 amended: when the scanner reaches a `}` whose expression body
names an inner key that is already in the in-flight history, resolution
fails with a cycle error naming the *current* resolution frame's key
(which equals the original top-level key only for self-references of
depth one). -/
theorem c5_amended_cycle_names_current_key :
    ∀ (src : Store) (f : Nat) (ck val0 : String) (value buf : List Char)
      (stack2 : List Nat) (last : Nat) (flag : Bool) (hist : List String)
      (rest : List Char),
      value.dropWhile (fun c => !isPat c) = '\x7d' :: rest →
      keyOf (bodyAt buf value last) ∈ hist →
      resolve src (f + 1) (Req.scan ck val0 value buf (last :: stack2) flag) hist
        = (Except.error (CfgError.configRecursiveError ck), hist) := by
  intro src f ck val0 value buf stack2 last flag hist rest hdrop hmem
  rw [resolve, hdrop]
  have h1 : ('\x7d' = '$') = False := by simp
  have h2 : ('\x7d' = '\\') = False := by simp
  simp only [h1, h2, if_false, if_pos hmem]

theorem c5_amended_witness :
    (List.dropWhile (fun c => !isPat c) ['b', '\x7d'] = '\x7d' :: [])
    ∧ keyOf (bodyAt [] ['b', '\x7d'] 0) ∈ ["b"]
    ∧ resolve [] 1 (Req.scan "x" "$\x7bb\x7d" ['b', '\x7d'] [] [0] false) ["b"]
        = (Except.error (CfgError.configRecursiveError "x"), ["b"]) :=
  ⟨by decide, by decide,
    c5_amended_cycle_names_current_key [] 0 "x" "$\x7bb\x7d" ['b', '\x7d'] [] [] 0
      false ["b"] [] (by decide) (by decide)⟩

/-- The one-key store `a="${b}"` used to refute C6. -/
def nfStore : Store := loadSource [] (strKVs [("a", "$\x7bb\x7d")])

/-- C6 counterexample: resolving `a` over `a="${b}"` inserts `b` into
the history, the recursive resolution of `b` fails with not-found and
there is no default, and the call returns the recursive-not-found error
with `b` still in the history — the incoming (empty) history is *not*
restored on this error path, contradicting the claim's "regardless of
outcome ... on success and on error alike". -/
theorem c6_counterexample :
    (doParseString 100 nfStore "a" []).1
      = Except.error (CfgError.configRecursiveNotFound "b")
    ∧ (doParseString 100 nfStore "a" []).2 = ["b"]
    ∧ (["b"] : List String) ≠ [] := by
  decide

/-- C6 amended: the inner key is removed from the history again
whenever the recursive resolution of the `}` expression succeeds or
fails as not-found with a default present; consequently every call that
returns success (or a plain not-found) hands back exactly the history
it was given.  On the other error paths the removal is skipped and the
error propagates (see the counterexample). -/
theorem c6_amended_history_restored_on_success :
    ∀ (fuel : Nat) (src : Store) (req : Req) (hist : List String),
      okOrNF (resolve src fuel req hist).1 → (resolve src fuel req hist).2 = hist :=
  resolve_history_restored

theorem c6_amended_witness :
    okOrNF (resolve specStore 100 (Req.keyed "c" none) []).1
    ∧ (resolve specStore 100 (Req.keyed "c" none) []).2 = ([] : List String) := by
  have h : (resolve specStore 100 (Req.keyed "c" none) []).1
      = Except.ok (Sum.inr (some (CfgValue.str "0"))) := by decide
  refine ⟨by rw [h]; trivial,
    c6_amended_history_restored_on_success 100 specStore (Req.keyed "c" none) []
      (by rw [h]; trivial)⟩

/-- C9: an `Option<T>` lookup answers `Ok(None)` exactly when the
underlying `T` conversion failed with not-found; a success becomes
`Ok(Some v)`; every other error kind propagates unchanged.  Moreover a
whole `Option<T>` key lookup is `optionFromConfig` of the `T` lookup
(value-resolution errors, which are never a raw not-found, propagate
through both alike). -/
theorem c9_option_notFound_absent :
    (∀ (α : Type) (r : Except CfgError α),
      (optionFromConfig r = Except.ok none
          ↔ ∃ k, r = Except.error (CfgError.configNotFound k))
      ∧ (∀ v : α, r = Except.ok v → optionFromConfig r = Except.ok (some v))
      ∧ (∀ e : CfgError, (∀ k, e ≠ CfgError.configNotFound k) →
          r = Except.error e → optionFromConfig r = Except.error e))
    ∧ (∀ (fuel : Nat) (src : Store) (key : String),
      cfgGetOptionBool fuel src key = optionFromConfig (cfgGetBool fuel src key)
      ∧ cfgGetOptionU8 fuel src key = optionFromConfig (cfgGetU8 fuel src key)) := by
  constructor
  · intro α r
    refine ⟨⟨?_, ?_⟩, ?_, ?_⟩
    · intro h
      cases r with
      | ok v => simp [optionFromConfig] at h
      | error e =>
        cases e with
        | configNotFound k => exact ⟨k, rfl⟩
        | configRecursiveNotFound k => simp [optionFromConfig] at h
        | configTypeMismatch a b c => simp [optionFromConfig] at h
        | configParseError a b => simp [optionFromConfig] at h
        | configRecursiveError a => simp [optionFromConfig] at h
        | configFileNotExists p => simp [optionFromConfig] at h
        | configFileNotSupported p => simp [optionFromConfig] at h
        | refValueRecursiveError => simp [optionFromConfig] at h
        | tooManyInstances n => simp [optionFromConfig] at h
        | lockPoisoned => simp [optionFromConfig] at h
        | configCause m => simp [optionFromConfig] at h
    · rintro ⟨k, rfl⟩
      rfl
    · intro v hv
      subst hv
      rfl
    · intro e he hr
      subst hr
      cases e with
      | configNotFound k => exact absurd rfl (he k)
      | configRecursiveNotFound k => rfl
      | configTypeMismatch a b c => rfl
      | configParseError a b => rfl
      | configRecursiveError a => rfl
      | configFileNotExists p => rfl
      | configFileNotSupported p => rfl
      | refValueRecursiveError => rfl
      | tooManyInstances n => rfl
      | lockPoisoned => rfl
      | configCause m => rfl
  · intro fuel src key
    exact ⟨cfgGetOptionWith_compose boolFromConfig fuel src key,
      cfgGetOptionWith_compose u8FromConfig fuel src key⟩

theorem c9_witness :
    optionFromConfig (α := Bool) (Except.error (CfgError.configNotFound "k"))
      = Except.ok none
    ∧ optionFromConfig (Except.ok true) = Except.ok (some true)
    ∧ optionFromConfig (α := Bool) (Except.error (CfgError.configParseError "k" "v"))
      = Except.error (CfgError.configParseError "k" "v") :=
  ⟨(c9_option_notFound_absent.1 Bool _).1.2 ⟨"k", rfl⟩,
    (c9_option_notFound_absent.1 Bool _).2.1 true rfl,
    (c9_option_notFound_absent.1 Bool _).2.2 _ (by intro k; simp) rfl⟩

/-- C10: for a scalar target whose `empty_value` is the default
(`bool`, `u8`, and every integer type), a key whose fully-resolved
value is the empty string fails with not-found exactly as an absent key
does; the same lookup as `String` succeeds with `""`, and as
`Option<bool>` / `Option<u8>` yields `None`.  Shown generically on the
converters and end-to-end on the key `e = "${z:}"` of the spec store,
whose resolved value is `""`. -/
theorem c10_empty_string_scalar_notFound :
    (∀ ck : String,
      boolFromConfig ck (some (CfgValue.str "")) = Except.error (CfgError.configNotFound ck)
      ∧ boolFromConfig ck none = Except.error (CfgError.configNotFound ck)
      ∧ u8FromConfig ck (some (CfgValue.str "")) = Except.error (CfgError.configNotFound ck)
      ∧ u8FromConfig ck none = Except.error (CfgError.configNotFound ck)
      ∧ stringFromConfig ck (some (CfgValue.str "")) = Except.ok "")
    ∧ cfgGetBool 100 specStore "e" = Except.error (CfgError.configNotFound "e")
    ∧ cfgGetU8 100 specStore "e" = Except.error (CfgError.configNotFound "e")
    ∧ cfgGetString 100 specStore "e" = Except.ok ""
    ∧ cfgGetOptionBool 100 specStore "e" = Except.ok none
    ∧ cfgGetOptionU8 100 specStore "e" = Except.ok none := by
  refine ⟨fun ck => ⟨rfl, rfl, rfl, rfl, rfl⟩, ?_, ?_, ?_, ?_, ?_⟩ <;> decide

/-! ## Layering lemmas (claims C2, C7) -/

lemma pushKey_value (hv : HashValue) (kk : SubKey) :
    (hv.pushKey kk).value = hv.value := by
  cases kk <;> rfl

lemma pushKey_subStr_int (hv : HashValue) (i : Nat) :
    (hv.pushKey (SubKey.Int i)).subStr = hv.subStr := rfl

lemma pushVal_subStr (hv : HashValue) (v : CfgValue) :
    (hv.pushVal v).subStr = hv.subStr := by
  unfold HashValue.pushVal; split <;> rfl

lemma pushVal_subInt (hv : HashValue) (v : CfgValue) :
    (hv.pushVal v).subInt = hv.subInt := by
  unfold HashValue.pushVal; split <;> rfl

/-- Children accessors at a canonical key (`collect_keys` reads these
fields of the node). -/
def subStrAt (m : Store) (k : String) : List String :=
  match storeFind m k with
  | some hv => hv.subStr
  | none => []

def subIntAt (m : Store) (k : String) : Option Nat :=
  (storeFind m k).bind (fun hv => hv.subInt)

/-- The node the lookup sees at `k` after `entry(c).or_insert` + modify:
at `c` the modified node (the found one, or a fresh one), elsewhere
unchanged. -/
lemma storeFind_updateStore (m : Store) (c : String) (f : HashValue → HashValue)
    (k : String) :
    storeFind (updateStore m c f) k
      = if c = k then
          some (f (match storeFind m k with
            | some hv => hv
            | none => HashValue.new))
        else storeFind m k := by
  induction m with
  | nil =>
    by_cases h : c = k <;> simp [updateStore, storeFind, h]
  | cons a rest ih =>
    obtain ⟨ak, av⟩ := a
    by_cases hac : ak = c
    · subst hac
      by_cases hk : ak = k
      · subst hk
        simp [updateStore, storeFind]
      · simp [updateStore, storeFind, hk]
    · by_cases hk : ak = k
      · subst hk
        have hck : ¬ c = ak := fun hcc => hac hcc.symm
        simp [updateStore, storeFind, hac, hck]
      · simp [updateStore, storeFind, hac, hk, ih]

/-- The scalar at `k` after a child registration is unchanged. -/
lemma getValue_update_pushKey (m : Store) (c : String) (kk : SubKey) (k : String) :
    storeGetValue (updateStore m c (fun hv => hv.pushKey kk)) k = storeGetValue m k := by
  unfold storeGetValue
  rw [storeFind_updateStore]
  by_cases h : c = k
  · rw [if_pos h]
    cases hf : storeFind m k with
    | some hv => simp [hf, pushKey_value]
    | none => simp [hf, pushKey_value, HashValue.new]
  · rw [if_neg h]

/-- The name-children at `k` after a scalar insertion are unchanged. -/
lemma subStrAt_update_pushVal (m : Store) (c : String) (v : CfgValue) (k : String) :
    subStrAt (updateStore m c (fun hv => hv.pushVal v)) k = subStrAt m k := by
  unfold subStrAt
  rw [storeFind_updateStore]
  by_cases h : c = k
  · rw [if_pos h]
    cases hf : storeFind m k with
    | some hv => simp [hf, pushVal_subStr]
    | none => simp [hf, pushVal_subStr, HashValue.new]
  · rw [if_neg h]

/-- The index bound at `k` after a scalar insertion is unchanged. -/
lemma subIntAt_update_pushVal (m : Store) (c : String) (v : CfgValue) (k : String) :
    subIntAt (updateStore m c (fun hv => hv.pushVal v)) k = subIntAt m k := by
  unfold subIntAt
  rw [storeFind_updateStore]
  by_cases h : c = k
  · rw [if_pos h]
    cases hf : storeFind m k with
    | some hv => simp [hf, pushVal_subInt]
    | none => simp [hf, pushVal_subInt, HashValue.new]
  · rw [if_neg h]

lemma getValue_pushCrossings :
    ∀ (ks : List SubKey) (m : Store) (curr : List Char) (k : String),
      storeGetValue ((pushCrossings m curr ks).1) k = storeGetValue m k := by
  intro ks
  induction ks with
  | nil => intro m curr k; rfl
  | cons kk ks ih =>
    intro m curr k
    unfold pushCrossings
    rw [ih, getValue_update_pushKey]

lemma pushCrossings_canon :
    ∀ (ks : List SubKey) (m : Store) (curr : List Char),
      (pushCrossings m curr ks).2 = List.foldl renderSub curr ks := by
  intro ks
  induction ks with
  | nil => intro m curr; rfl
  | cons kk ks ih => intro m curr; unfold pushCrossings; rw [ih]; rfl

lemma getValue_builderSet (m : Store) (raw : String) (v : CfgValue) (k : String) :
    storeGetValue (builderSet m raw v) k
      = if normalizeKey raw = k then
          (match storeGetValue m k with
           | none => some v
           | some w => some w)
        else storeGetValue m k := by
  have hc : (⟨(pushCrossings m [] (subKeysOf raw.data)).2⟩ : String) = normalizeKey raw := by
    rw [pushCrossings_canon]; rfl
  have hpc := getValue_pushCrossings (subKeysOf raw.data) m [] k
  by_cases h : normalizeKey raw = k
  · rw [if_pos h]
    unfold builderSet storeGetValue
    rw [storeFind_updateStore, hc, if_pos h]
    cases hf : storeFind (pushCrossings m [] (subKeysOf raw.data)).1 k with
    | some hv =>
      have hv_eq : hv.value = (storeFind m k).bind (fun hv => hv.value) := by
        unfold storeGetValue at hpc
        rw [hf] at hpc
        simpa using hpc
      simp only [hf, Option.some_bind, ← hv_eq]
      unfold HashValue.pushVal
      cases hval : hv.value with
      | none => simp [hval]
      | some w => simp [hval]
    | none =>
      have hnone : (storeFind m k).bind (fun hv => hv.value) = none := by
        unfold storeGetValue at hpc
        rw [hf] at hpc
        simpa using hpc.symm
      simp only [hf, Option.some_bind, hnone]
      simp [HashValue.pushVal, HashValue.new]
  · rw [if_neg h]
    unfold builderSet storeGetValue
    rw [storeFind_updateStore, hc, if_neg h]
    unfold storeGetValue at hpc
    exact hpc

/-- Specification-side function (§ 2.4 "LayeredStore" invariant as the
spec words it): the scalar set by the first insertion, in registration
order, whose canonical key is `k`. -/
def firstSetValue : List (String × CfgValue) → String → Option CfgValue
  | [], _ => none
  | kv :: ops, k =>
    if normalizeKey kv.1 = k then some kv.2 else firstSetValue ops k

lemma getValue_loadSource :
    ∀ (ops : List (String × CfgValue)) (m : Store) (k : String),
      storeGetValue (loadSource m ops) k
        = (match storeGetValue m k with
           | some w => some w
           | none => firstSetValue ops k) := by
  intro ops
  induction ops with
  | nil =>
    intro m k
    unfold loadSource firstSetValue
    simp only [List.foldl_nil]
    cases storeGetValue m k <;> rfl
  | cons kv ops ih =>
    intro m k
    unfold loadSource at ih ⊢
    simp only [List.foldl_cons]
    rw [ih, getValue_builderSet]
    by_cases h : normalizeKey kv.1 = k
    · rw [if_pos h]
      cases hm : storeGetValue m k with
      | none => simp [firstSetValue, h]
      | some w => simp
    · rw [if_neg h]
      simp [firstSetValue, h]

lemma mergeAll_flatten :
    ∀ (sources : List (List (String × CfgValue))) (m : Store),
      sources.foldl loadSource m = loadSource m sources.flatten := by
  intro sources
  induction sources with
  | nil => intro m; rfl
  | cons s sources ih =>
    intro m
    simp only [List.foldl_cons, List.flatten_cons]
    rw [ih]
    unfold loadSource
    rw [List.foldl_append]

/-- Specification-side function: the `(node key, child segment)` pairs
a `push` walk starting at canonical key `curr` registers ("at each level
crossed, registers that segment as a known child of the parent node"). -/
def opCrossingsFrom : List Char → List SubKey → List (String × SubKey)
  | _, [] => []
  | curr, kk :: ks => (⟨curr⟩, kk) :: opCrossingsFrom (renderSub curr kk) ks

/-- The name children one insertion contributes at node `k`. -/
def crossStrsFrom (curr : List Char) (ks : List SubKey) (k : String) : List String :=
  (opCrossingsFrom curr ks).filterMap
    (fun p => if p.1 = k then
        match p.2 with
        | SubKey.Str t => some ⟨t⟩
        | SubKey.Int _ => none
      else none)

/-- The index children one insertion contributes at node `k`. -/
def crossIntsFrom (curr : List Char) (ks : List SubKey) (k : String) : List Nat :=
  (opCrossingsFrom curr ks).filterMap
    (fun p => if p.1 = k then
        match p.2 with
        | SubKey.Int i => some i
        | SubKey.Str _ => none
      else none)

def crossStrs (raw : String) (k : String) : List String :=
  crossStrsFrom [] (subKeysOf raw.data) k

def crossInts (raw : String) (k : String) : List Nat :=
  crossIntsFrom [] (subKeysOf raw.data) k

/-- All name children contributed at `k` by a list of insertions. -/
def opsCrossStrs (ops : List (String × CfgValue)) (k : String) : List String :=
  ops.flatMap (fun kv => crossStrs kv.1 k)

/-- All index children contributed at `k` by a list of insertions. -/
def opsCrossInts (ops : List (String × CfgValue)) (k : String) : List Nat :=
  ops.flatMap (fun kv => crossInts kv.1 k)

/-- One `push_key` step on the recorded index bound
(`get_or_insert` then raise). -/
def maxStep (acc : Option Nat) (i : Nat) : Option Nat :=
  some (match acc with
    | none => i
    | some v => if v < i then i else v)

def maxFold (o : Option Nat) (l : List Nat) : Option Nat :=
  l.foldl maxStep o

lemma mem_insertSet (l : List String) (x s : String) :
    s ∈ insertSet l x ↔ s ∈ l ∨ s = x := by
  by_cases h : x ∈ l
  · simp only [insertSet, if_pos h]
    exact ⟨Or.inl, fun h' => h'.elim id (fun he => he ▸ h)⟩
  · simp [insertSet, if_neg h]

lemma subStrAt_update_pushKey (m : Store) (c : String) (kk : SubKey) (k : String)
    (s : String) :
    s ∈ subStrAt (updateStore m c (fun hv => hv.pushKey kk)) k
      ↔ s ∈ subStrAt m k ∨ (c = k ∧ ∃ t, kk = SubKey.Str t ∧ s = (⟨t⟩ : String)) := by
  unfold subStrAt
  rw [storeFind_updateStore]
  by_cases h : c = k
  · rw [if_pos h]
    cases hf : storeFind m k with
    | some hv =>
      cases kk with
      | Str t =>
        show s ∈ insertSet hv.subStr ⟨t⟩ ↔ _
        rw [mem_insertSet]
        simp [h]
      | Int i =>
        show s ∈ hv.subStr ↔ _
        simp [h]
    | none =>
      cases kk with
      | Str t =>
        show s ∈ insertSet [] ⟨t⟩ ↔ _
        rw [mem_insertSet]
        simp [h]
      | Int i =>
        show s ∈ ([] : List String) ↔ _
        simp [h]
  · rw [if_neg h]
    simp [h]

lemma crossStrsFrom_cons (curr : List Char) (kk : SubKey) (ks : List SubKey)
    (k : String) :
    crossStrsFrom curr (kk :: ks) k
      = (if (⟨curr⟩ : String) = k then
           match kk with
           | SubKey.Str t => [(⟨t⟩ : String)]
           | SubKey.Int _ => []
         else []) ++ crossStrsFrom (renderSub curr kk) ks k := by
  unfold crossStrsFrom
  rw [show opCrossingsFrom curr (kk :: ks)
      = (⟨curr⟩, kk) :: opCrossingsFrom (renderSub curr kk) ks from rfl,
    List.filterMap_cons]
  by_cases hck : (⟨curr⟩ : String) = k
  · cases kk with
    | Str t => simp [hck]
    | Int i => simp [hck]
  · simp [hck]

lemma subStrAt_pushCrossings :
    ∀ (ks : List SubKey) (m : Store) (curr : List Char) (k : String) (s : String),
      s ∈ subStrAt ((pushCrossings m curr ks).1) k
        ↔ s ∈ subStrAt m k ∨ s ∈ crossStrsFrom curr ks k := by
  intro ks
  induction ks with
  | nil => intro m curr k s; simp [pushCrossings, crossStrsFrom, opCrossingsFrom]
  | cons kk ks ih =>
    intro m curr k s
    unfold pushCrossings
    rw [ih, subStrAt_update_pushKey, crossStrsFrom_cons]
    by_cases hck : (⟨curr⟩ : String) = k
    · cases kk with
      | Str t => simp [hck]; tauto
      | Int i => simp [hck]
    · simp [hck]

lemma pushKey_subInt_int (hv : HashValue) (i : Nat) :
    (hv.pushKey (SubKey.Int i)).subInt = maxStep hv.subInt i := rfl

lemma subIntAt_update_pushKey (m : Store) (c : String) (kk : SubKey) (k : String) :
    subIntAt (updateStore m c (fun hv => hv.pushKey kk)) k
      = if c = k then
          (match kk with
           | SubKey.Int i => maxStep (subIntAt m k) i
           | SubKey.Str _ => subIntAt m k)
        else subIntAt m k := by
  unfold subIntAt
  rw [storeFind_updateStore]
  by_cases h : c = k
  · rw [if_pos h, if_pos h]
    cases hf : storeFind m k with
    | some hv =>
      cases kk with
      | Str t => simp [HashValue.pushKey]
      | Int i => simp [pushKey_subInt_int]
    | none =>
      cases kk with
      | Str t => simp [HashValue.pushKey, HashValue.new]
      | Int i => simp [pushKey_subInt_int, HashValue.new, maxStep]
  · rw [if_neg h, if_neg h]

lemma crossIntsFrom_cons (curr : List Char) (kk : SubKey) (ks : List SubKey)
    (k : String) :
    crossIntsFrom curr (kk :: ks) k
      = (if (⟨curr⟩ : String) = k then
           match kk with
           | SubKey.Int i => [i]
           | SubKey.Str _ => []
         else []) ++ crossIntsFrom (renderSub curr kk) ks k := by
  unfold crossIntsFrom
  rw [show opCrossingsFrom curr (kk :: ks)
      = (⟨curr⟩, kk) :: opCrossingsFrom (renderSub curr kk) ks from rfl,
    List.filterMap_cons]
  by_cases hck : (⟨curr⟩ : String) = k
  · cases kk with
    | Str t => simp [hck]
    | Int i => simp [hck]
  · simp [hck]

lemma subIntAt_pushCrossings :
    ∀ (ks : List SubKey) (m : Store) (curr : List Char) (k : String),
      subIntAt ((pushCrossings m curr ks).1) k
        = maxFold (subIntAt m k) (crossIntsFrom curr ks k) := by
  intro ks
  induction ks with
  | nil => intro m curr k; simp [pushCrossings, crossIntsFrom, opCrossingsFrom, maxFold]
  | cons kk ks ih =>
    intro m curr k
    unfold pushCrossings
    rw [ih, subIntAt_update_pushKey, crossIntsFrom_cons]
    by_cases hck : (⟨curr⟩ : String) = k
    · cases kk with
      | Str t => simp [hck]
      | Int i => simp [hck, maxFold]
    · simp [hck]

lemma subStrAt_builderSet (m : Store) (raw : String) (v : CfgValue) (k s : String) :
    s ∈ subStrAt (builderSet m raw v) k ↔ s ∈ subStrAt m k ∨ s ∈ crossStrs raw k := by
  unfold builderSet crossStrs
  rw [subStrAt_update_pushVal, subStrAt_pushCrossings]

lemma subIntAt_builderSet (m : Store) (raw : String) (v : CfgValue) (k : String) :
    subIntAt (builderSet m raw v) k = maxFold (subIntAt m k) (crossInts raw k) := by
  unfold builderSet crossInts
  rw [subIntAt_update_pushVal, subIntAt_pushCrossings]

lemma maxFold_append (o : Option Nat) (l₁ l₂ : List Nat) :
    maxFold o (l₁ ++ l₂) = maxFold (maxFold o l₁) l₂ := by
  unfold maxFold
  rw [List.foldl_append]

lemma subStrAt_loadSource :
    ∀ (ops : List (String × CfgValue)) (m : Store) (k s : String),
      s ∈ subStrAt (loadSource m ops) k
        ↔ s ∈ subStrAt m k ∨ s ∈ opsCrossStrs ops k := by
  intro ops
  induction ops with
  | nil => intro m k s; simp [loadSource, opsCrossStrs]
  | cons kv ops ih =>
    intro m k s
    unfold loadSource at ih ⊢
    simp only [List.foldl_cons]
    rw [ih, subStrAt_builderSet]
    unfold opsCrossStrs
    simp only [List.flatMap_cons, List.mem_append]
    tauto

lemma subIntAt_loadSource :
    ∀ (ops : List (String × CfgValue)) (m : Store) (k : String),
      subIntAt (loadSource m ops) k
        = maxFold (subIntAt m k) (opsCrossInts ops k) := by
  intro ops
  induction ops with
  | nil => intro m k; simp [loadSource, opsCrossInts, maxFold]
  | cons kv ops ih =>
    intro m k
    unfold loadSource at ih ⊢
    simp only [List.foldl_cons]
    rw [ih, subIntAt_builderSet]
    unfold opsCrossInts
    simp only [List.flatMap_cons]
    rw [maxFold_append]

lemma maxFold_some (l : List Nat) :
    ∀ a : Nat, maxFold (some a) l = some (l.foldl max a) := by
  induction l with
  | nil => intro a; rfl
  | cons i l ih =>
    intro a
    unfold maxFold at ih ⊢
    simp only [List.foldl_cons]
    have hstep : maxStep (some a) i = some (max a i) := by
      unfold maxStep
      simp only [Option.some.injEq]
      split <;> omega
    rw [hstep, ih]

lemma foldl_max_spec (l : List Nat) :
    ∀ a : Nat, (l.foldl max a = a ∨ l.foldl max a ∈ l)
      ∧ a ≤ l.foldl max a ∧ ∀ i ∈ l, i ≤ l.foldl max a := by
  induction l with
  | nil => intro a; exact ⟨Or.inl rfl, Nat.le_refl a, by simp⟩
  | cons j l ih =>
    intro a
    simp only [List.foldl_cons]
    obtain ⟨hmem, hle, hbound⟩ := ih (max a j)
    refine ⟨?_, ?_, ?_⟩
    · rcases hmem with heq | hmem
      · rcases Nat.le_total j a with hja | haj
        · rw [heq, Nat.max_eq_left hja]
          exact Or.inl rfl
        · rw [heq, Nat.max_eq_right haj]
          exact Or.inr (List.mem_cons_self _ _)
      · exact Or.inr (List.mem_cons_of_mem _ hmem)
    · exact Nat.le_trans (Nat.le_max_left a j) hle
    · intro i hi
      rcases List.mem_cons.1 hi with rfl | hi
      · exact Nat.le_trans (Nat.le_max_right a i) hle
      · exact hbound i hi

/-- The recorded index bound is the maximum of all contributed
indices. -/
lemma maxFold_none_spec (l : List Nat) (M : Nat) :
    maxFold none l = some M ↔ M ∈ l ∧ ∀ i ∈ l, i ≤ M := by
  cases l with
  | nil => simp [maxFold]
  | cons j l =>
    have h1 : maxFold none (j :: l) = some (l.foldl max j) := by
      unfold maxFold
      simp only [List.foldl_cons]
      rw [show maxStep none j = some j from rfl]
      exact maxFold_some l j
    rw [h1]
    obtain ⟨hmem, hle, hbound⟩ := foldl_max_spec l j
    constructor
    · intro h
      injection h with h'
      subst h'
      refine ⟨?_, ?_⟩
      · rcases hmem with heq | hmem
        · rw [heq]; exact List.mem_cons_self _ _
        · exact List.mem_cons_of_mem _ hmem
      · intro i hi
        rcases List.mem_cons.1 hi with rfl | hi
        · exact hle
        · exact hbound i hi
    · rintro ⟨hM, hub⟩
      have hup : l.foldl max j ≤ M := by
        rcases hmem with heq | hmem
        · rw [heq]; exact hub j (List.mem_cons_self _ _)
        · exact hub _ (List.mem_cons_of_mem _ hmem)
      have hlo : M ≤ l.foldl max j := by
        rcases List.mem_cons.1 hM with rfl | hM
        · exact hle
        · exact hbound M hM
      rw [Nat.le_antisymm hup hlo]

/-! ## Claims C2 and C3 -/

/-- C2: for every key and every sequence of registered sources, the
scalar a lookup returns is the one set by the first insertion (in
registration order) whose canonical key matches — later insertions
never overwrite it — while the children descriptors aggregate across
all sources: the name-children set is the union of every insertion's
contributions and the recorded index bound is the maximum of every
contributed index. -/
theorem c2_first_source_wins_children_union :
    (∀ (sources : List (List (String × CfgValue))) (k : String),
      storeGetValue (mergeAll sources) k = firstSetValue sources.flatten k)
    ∧ (∀ (sources : List (List (String × CfgValue))) (k s : String),
      s ∈ subStrAt (mergeAll sources) k ↔ s ∈ opsCrossStrs sources.flatten k)
    ∧ (∀ (sources : List (List (String × CfgValue))) (k : String) (M : Nat),
      subIntAt (mergeAll sources) k = some M
        ↔ M ∈ opsCrossInts sources.flatten k
          ∧ ∀ i ∈ opsCrossInts sources.flatten k, i ≤ M) := by
  refine ⟨?_, ?_, ?_⟩
  · intro sources k
    unfold mergeAll
    rw [mergeAll_flatten, getValue_loadSource]
    rfl
  · intro sources k s
    unfold mergeAll
    rw [mergeAll_flatten, subStrAt_loadSource]
    simp [subStrAt, storeFind]
  · intro sources k M
    unfold mergeAll
    rw [mergeAll_flatten, subIntAt_loadSource,
      show subIntAt ([] : Store) k = none from rfl]
    exact maxFold_none_spec _ M

theorem c2_witness :
    storeGetValue (mergeAll [strKVs [("x", "1")], strKVs [("x", "2")]]) "x"
      = firstSetValue (List.flatten [strKVs [("x", "1")], strKVs [("x", "2")]]) "x"
    ∧ firstSetValue (List.flatten [strKVs [("x", "1")], strKVs [("x", "2")]]) "x"
      = some (CfgValue.str "1") :=
  ⟨c2_first_source_wins_children_union.1 [strKVs [("x", "1")], strKVs [("x", "2")]] "x",
    by decide⟩

/-- C3: over the alphabet of letters, digits and the delimiters `.`,
`[`, `]`, normalization is idempotent, and the spellings `a.0.b` and
`a[0].b` both normalize to the canonical string `a[0].b`. -/
theorem c3_normalization_idempotent :
    (∀ s : String, (∀ c ∈ s.data, c.isAlphanum = true ∨ isKeyDelim c = true) →
      normalizeKey (normalizeKey s) = normalizeKey s)
    ∧ normalizeKey "a.0.b" = "a[0].b"
    ∧ normalizeKey "a[0].b" = "a[0].b" := by
  refine ⟨fun s _ => normalizeKey_idem s, by decide, by decide⟩

theorem c3_witness :
    (∀ c ∈ ("a.0.b" : String).data, c.isAlphanum = true ∨ isKeyDelim c = true)
    ∧ normalizeKey (normalizeKey "a.0.b") = normalizeKey "a.0.b" :=
  ⟨by decide, c3_normalization_idempotent.1 "a.0.b" (by decide)⟩

/-! ## Claim C7: array enumeration -/

/-- Embedding of `ConfigContext::collect_keys` followed by
`PartialKeyCollector::insert_int` on a fresh collector: the collector's
index bound is the node's recorded maximum index plus one.
(`PartialKeyCollector` itself is not among the repository's files; its
`insert_int` is modelled from `SubKeyList::insert_int`, src/key.rs
lines 70-79, which records `key + 1`.) -/
def collectKeysInt (m : Store) (k : String) : Option Nat :=
  (subIntAt m k).map (fun i => i + 1)

/-- Pushing the index segment `i` onto the canonical key `k`. -/
def childKey (k : String) (i : Nat) : String :=
  ⟨renderSub k.data (SubKey.Int i)⟩

/-- The element loop of `FromConfig for Vec<V>`: each index in turn,
aborting at the first error (`vs.push(context.do_parse_config(..)?)`).
-/
def collectVec {α : Type} : List Nat → (Nat → Except CfgError α) → Except CfgError (List α)
  | [], _ => Except.ok []
  | i :: is, f =>
    match f i with
    | Except.ok v =>
      match collectVec is f with
      | Except.ok vs => Except.ok (v :: vs)
      | Except.error e => Except.error e
    | Except.error e => Except.error e

/-- One `Vec<Option<String>>` element: `do_parse_config::<Option<String>>`
at the index child of `k`, with a fresh history. -/
def vecOptionElem (fuel : Nat) (m : Store) (k : String) (i : Nat) :
    Except CfgError (Option String) :=
  match (doParseValue fuel m (childKey k i) none []).1 with
  | Except.ok w => optionFromConfig (stringFromConfig (childKey k i) w)
  | Except.error e => Except.error e

/-- Embedding of `FromConfig for Vec<Option<String>>` at canonical key `k`:
enumerate indices `0 .. int_key` of the collector. -/
def vecOptionString (fuel : Nat) (m : Store) (k : String) :
    Except CfgError (List (Option String)) :=
  match collectKeysInt m k with
  | none => Except.ok []
  | some v => collectVec (List.range v) (vecOptionElem fuel m k)

lemma collectVec_length {α : Type} :
    ∀ (l : List Nat) (f : Nat → Except CfgError α) (vs : List α),
      collectVec l f = Except.ok vs → vs.length = l.length := by
  intro l
  induction l with
  | nil =>
    intro f vs h
    unfold collectVec at h
    injection h with h'
    subst h'
    rfl
  | cons i is ih =>
    intro f vs h
    unfold collectVec at h
    split at h
    · split at h
      · injection h with h'
        rw [← h']
        simp only [List.length_cons]
        rename_i vs' heq'
        rw [ih f vs' heq']
      · exact absurd h (by simp)
    · exact absurd h (by simp)

/-- C7: the per-node index bound aggregates the maximum index over all
registered sources, and deserializing `Vec<Option<String>>` at a prefix
whose recorded bound is `M` enumerates exactly indices `0..M`: any
successful result has length `M + 1`, no matter which source
contributed which index. -/
theorem c7_vec_enumerates_max_index :
    (∀ (fuel : Nat) (sources : List (List (String × CfgValue))) (k : String)
        (M : Nat) (vs : List (Option String)),
      subIntAt (mergeAll sources) k = some M →
      vecOptionString fuel (mergeAll sources) k = Except.ok vs →
      vs.length = M + 1)
    ∧ (∀ (sources : List (List (String × CfgValue))) (k : String) (M : Nat),
      subIntAt (mergeAll sources) k = some M →
      M ∈ opsCrossInts sources.flatten k
        ∧ ∀ i ∈ opsCrossInts sources.flatten k, i ≤ M) := by
  constructor
  · intro fuel sources k M vs hint hvec
    have hck : collectKeysInt (mergeAll sources) k = some (M + 1) := by
      unfold collectKeysInt
      rw [hint]
      rfl
    unfold vecOptionString at hvec
    rw [hck] at hvec
    rw [collectVec_length (List.range (M + 1))
      (vecOptionElem fuel (mergeAll sources) k) vs hvec, List.length_range]
  · intro sources k M hint
    unfold mergeAll at hint
    rw [mergeAll_flatten, subIntAt_loadSource,
      show subIntAt ([] : Store) k = none from rfl] at hint
    exact (maxFold_none_spec _ M).1 hint

/-- The three one-key sources of the repository's `get_test`:
`key[0]` from the first source, `key[5]` from the second, `key[3]` from
the third. -/
def arrSources : List (List (String × CfgValue)) :=
  [strKVs [("key[0]", "xx")], strKVs [("key[5]", "xx")], strKVs [("key[3]", "xx")]]

theorem c7_witness :
    subIntAt (mergeAll arrSources) "key" = some 5
    ∧ vecOptionString 100 (mergeAll arrSources) "key"
        = Except.ok [some "xx", none, none, some "xx", none, some "xx"]
    ∧ ∀ vs : List (Option String),
        vecOptionString 100 (mergeAll arrSources) "key" = Except.ok vs →
        vs.length = 5 + 1 := by
  refine ⟨by decide, by decide, fun vs h =>
    c7_vec_enumerates_max_index.1 100 arrSources "key" 5 vs (by decide) h⟩

/-! ## Claim C4: refresh is single-shot (src/source/file.rs, src/cache.rs,
src/value_ref.rs, src/configuration.rs) -/

/-- What the filesystem under a `FileLoader` currently yields: `mtime` is the
value `modified_time(&self.path)` returns now, `present` the value of
`path.exists()`, and `parsed` the outcome of `std::fs::read_to_string`
followed by `L::parse_source` and `convert_source`, reduced to the
`(key, scalar)` insertions it pushes into the builder.  These fields stay
fixed across the modelled calls: the claims' hypothesis is that nothing
changes underneath between the reloads. -/
structure FileEnv where
  mtime : Option Nat
  present : Bool
  parsed : Except CfgError (List (String × CfgValue))
deriving DecidableEq

/-- The origin `ConfigSource` implementors relevant to refresh, as found in the
sources: `FileLoader<L>` (src/source/file.rs) with its path, its `required`
flag, its stored `modified : Mutex<Option<SystemTime>>` (`SystemTime` as a
Nat) and the current filesystem observations (the single-path `ext = true`
case; the other variant repeats the same per candidate extension); the test
source `R` of src/value_ref.rs with its `Mutex<(u64, bool)>`; and any source
keeping the trait defaults (such as `HashSource`), reduced to its
insertions. -/
inductive Origin where
  | file (path : String) (required : Bool) (modified : Option Nat) (env : FileEnv)
  | testR (val : Nat) (flag : Bool)
  | fixed (kvs : List (String × CfgValue))
deriving DecidableEq

/-- Embedding of `allow_refresh`: `FileLoader` answers true (src/source/file.rs
lines 83-85), the test source `R` answers true (src/value_ref.rs lines
172-174), every other source keeps the trait default false
(src/source/mod.rs lines 201-203). -/
def Origin.allowRefresh : Origin → Bool
  | .file _ _ _ _ => true
  | .testR _ _ => true
  | .fixed _ => false

/-- Embedding of the `refreshable` implementations found in the sources:
`FileLoader::refreshable` (src/source/file.rs lines 87-93) reads the current
modification time, compares it with the stored one, stores the current one
and reports whether they differed; `R::refreshable` (src/value_ref.rs lines
176-181) reports its flag and resets it to false; the trait default answers
false (src/source/mod.rs lines 208-210).  Lock poisoning is omitted, as for
`Refresher`. -/
def Origin.refreshable : Origin → Bool × Origin
  | .file p req g env =>
    (if env.mtime = g then false else true, .file p req env.mtime env)
  | .testR v f => (f, .testR v false)
  | .fixed kvs => (false, .fixed kvs)

/-- Embedding of the origin `load` implementations, reduced to the `(key,
scalar)` insertions pushed into the builder: `FileLoader::load`
(src/source/file.rs lines 66-81: a missing file is an error only when the
loader is required, otherwise it contributes nothing); `R::load` sets key
"hello" to the current value (src/value_ref.rs lines 167-170); a fixed
source pushes its insertions. -/
def Origin.load : Origin → Except CfgError (List (String × CfgValue))
  | .file p req _ env =>
    if env.present then env.parsed
    else if req then Except.error (CfgError.configFileNotExists p)
    else Except.ok []
  | .testR v _ => Except.ok [("hello", CfgValue.int (Int.ofNat v))]
  | .fixed kvs => Except.ok kvs

/-- Embedding of `CacheConfigSource` (src/cache.rs), the wrapper that
`register_source` puts around every origin: the cached rebuilt source
(`Option<HashSource>`, kept as the insertions it replays), the dirty bit,
and the wrapped origin. -/
structure CacheSource where
  cache : Option (List (String × CfgValue))
  dirty : Bool
  origin : Origin
deriving DecidableEq

/-- Embedding of `CacheConfigSource::refreshable` (src/cache.rs lines 81-88): if
the origin does not allow refresh, answer false without consulting it;
otherwise ask the origin and record the answer in the dirty bit. -/
def CacheSource.refreshable (c : CacheSource) : Bool × CacheSource :=
  if c.origin.allowRefresh then
    ((c.origin.refreshable).1,
      ⟨c.cache, (c.origin.refreshable).1, (c.origin.refreshable).2⟩)
  else (false, c)

/-- Embedding of `CacheConfigSource::load` (src/cache.rs lines 67-75): when dirty
or never built, rebuild the cache from the origin (a failing origin load
propagates and leaves the cache untouched), then replay the cached
insertions into the builder. -/
def CacheSource.load (c : CacheSource) :
    Except CfgError (List (String × CfgValue)) × CacheSource :=
  if c.dirty || c.cache.isNone then
    match c.origin.load with
    | Except.error e => (Except.error e, c)
    | Except.ok kvs => (Except.ok kvs, ⟨some kvs, false, c.origin⟩)
  else (Except.ok (c.cache.getD []), c)

/-- The parts of `Configuration` that `reload` touches: the registered loaders
(each wrapped in a `CacheConfigSource` by `register_source`,
src/configuration.rs lines 325-343) and the keys of the `RefValue` cells
held by the `Refresher` (each `RefValue::refresh` re-resolves its key
against the freshly built configuration, src/value_ref.rs lines 81-85,
modelled at result type String). -/
structure Config where
  loaders : List CacheSource
  refs : List String
deriving DecidableEq

/-- The first loop of `Configuration::reload` (src/configuration.rs lines
348-353): ask every loader's `refreshable` in order, with no short-circuit,
and remember whether any loader reported a change. -/
def sweep : List CacheSource → Bool × List CacheSource
  | [] => (false, [])
  | c :: cs =>
    ((c.refreshable).1 || (sweep cs).1, (c.refreshable).2 :: (sweep cs).2)

/-- The second loop of `Configuration::reload` (src/configuration.rs lines
355-358): load every loader in order into the fresh configuration's builder;
the first failure propagates, leaving the loaders after it untouched. -/
def loadAll (st : Store) : List CacheSource → Except CfgError Store × List CacheSource
  | [] => (Except.ok st, [])
  | c :: cs =>
    match (c.load).1 with
    | Except.error e => (Except.error e, (c.load).2 :: cs)
    | Except.ok kvs =>
      ((loadAll (loadSource st kvs) cs).1,
        (c.load).2 :: (loadAll (loadSource st kvs) cs).2)

/-- Embedding of `Refresher::refresh` (src/value_ref.rs lines 109-115):
re-resolve every registered cell's key against the freshly built
configuration, stopping at the first failure. -/
def refsRefresh (fuel : Nat) (s : Store) : List String → Except CfgError Unit
  | [] => Except.ok ()
  | k :: ks =>
    match cfgGetString fuel s k with
    | Except.error e => Except.error e
    | Except.ok _ => refsRefresh fuel s ks

/-- Embedding of `Configuration::reload` (src/configuration.rs lines 346-363):
ask every loader whether it changed (each answer resets that loader's
changed state), and if any did, rebuild a fresh configuration
(`Configuration::new` starts from an empty store) from all loaders and
re-resolve every `RefValue` cell against it; a failure in either rebuild
step surfaces after the sweep has already run. -/
def reload (fuel : Nat) (c : Config) : Except CfgError Bool × Config :=
  if (sweep c.loaders).1 then
    match (loadAll [] (sweep c.loaders).2).1 with
    | Except.error e =>
      (Except.error e, ⟨(loadAll [] (sweep c.loaders).2).2, c.refs⟩)
    | Except.ok st =>
      match refsRefresh fuel st c.refs with
      | Except.error e =>
        (Except.error e, ⟨(loadAll [] (sweep c.loaders).2).2, c.refs⟩)
      | Except.ok _ =>
        (Except.ok true, ⟨(loadAll [] (sweep c.loaders).2).2, c.refs⟩)
  else (Except.ok false, ⟨(sweep c.loaders).2, c.refs⟩)

/-- Embedding of `Configuration::refresh_ref` (src/configuration.rs lines
366-368): the boolean or error of `reload`; the loaders' internal refresh
state is the only part of the configuration that changes. -/
def refreshRef (fuel : Nat) (c : Config) : Except CfgError Bool × Config :=
  reload fuel c

/-- The refresh answer a loader would give, as a function of its origin
alone. -/
def originFlag (o : Origin) : Bool :=
  if o.allowRefresh then (o.refreshable).1 else false

lemma cacheRefreshable_fst (c : CacheSource) :
    (c.refreshable).1 = originFlag c.origin := by
  unfold CacheSource.refreshable originFlag
  by_cases h : c.origin.allowRefresh <;> simp [h]

lemma originFlag_reset (o : Origin) : originFlag ((o.refreshable).2) = false := by
  cases o with
  | file p req g env => simp [Origin.refreshable, originFlag, Origin.allowRefresh]
  | testR v f => rfl
  | fixed kvs => rfl

lemma cacheRefreshable_reset (c : CacheSource) :
    originFlag (((c.refreshable).2).origin) = false := by
  unfold CacheSource.refreshable
  by_cases h : c.origin.allowRefresh
  · simp [h, originFlag_reset]
  · simp [h, originFlag]

lemma sweep_fst (ls : List CacheSource) :
    (sweep ls).1 = ls.any (fun l => originFlag l.origin) := by
  induction ls with
  | nil => rfl
  | cons c cs ih => simp [sweep, ih, cacheRefreshable_fst, List.any_cons]

lemma sweep_snd (ls : List CacheSource) :
    (sweep ls).2 = ls.map (fun l => (l.refreshable).2) := by
  induction ls with
  | nil => rfl
  | cons c cs ih => simp [sweep, ih]

lemma cacheLoad_origin (c : CacheSource) : ((c.load).2).origin = c.origin := by
  unfold CacheSource.load
  by_cases h : (c.dirty || c.cache.isNone) = true
  · rw [if_pos h]
    cases hl : c.origin.load <;> rfl
  · rw [if_neg h]

lemma loadAll_origins (st : Store) (ls : List CacheSource) :
    ((loadAll st ls).2).map CacheSource.origin = ls.map CacheSource.origin := by
  induction ls generalizing st with
  | nil => rfl
  | cons c cs ih =>
    unfold loadAll
    cases hl : (c.load).1 with
    | error e => simp [cacheLoad_origin]
    | ok kvs => simp [cacheLoad_origin, ih]

lemma reload_origins (fuel : Nat) (c : Config) :
    (((reload fuel c).2).loaders).map CacheSource.origin
      = (c.loaders).map (fun l => (((l.refreshable).2).origin)) := by
  have hkey : ((sweep c.loaders).2).map CacheSource.origin
      = (c.loaders).map (fun l => (((l.refreshable).2).origin)) := by
    rw [sweep_snd, List.map_map]
    rfl
  unfold reload
  by_cases h : (sweep c.loaders).1 = true
  · rw [if_pos h]
    cases hl : (loadAll [] (sweep c.loaders).2).1 with
    | error e => simpa [loadAll_origins] using hkey
    | ok st =>
      cases hr : refsRefresh fuel st c.refs with
      | error e => simpa [hr, loadAll_origins] using hkey
      | ok u => simpa [hr, loadAll_origins] using hkey
  · rw [if_neg h]
    exact hkey

lemma second_sweep_false (fuel : Nat) (c : Config) :
    (sweep (((reload fuel c).2).loaders)).1 = false := by
  rw [sweep_fst, List.any_eq_false]
  intro l hl
  have hmem : l.origin ∈ (((reload fuel c).2).loaders).map CacheSource.origin :=
    List.mem_map_of_mem _ hl
  rw [reload_origins] at hmem
  rcases List.mem_map.mp hmem with ⟨l0, _, hl0⟩
  have hres : originFlag l.origin = false := by
    rw [← hl0]
    exact cacheRefreshable_reset l0
  simp [hres]

lemma reload_fst_of_sweep_false (fuel : Nat) (c : Config)
    (h : (sweep c.loaders).1 = false) : (reload fuel c).1 = Except.ok false := by
  unfold reload
  rw [if_neg (by simp [h])]

/-- C4 (amended): if at least one registered source reports a real change, the
first `reload` (`refresh_ref`) answers true provided the rebuild it triggers
succeeds — every loader re-loads without error and every bound `RefValue`
key re-resolves — and a second `reload` with no further underlying change
answers false unconditionally: every source's changed-predicate is
single-shot, its internal state being reset by the first sweep even when the
first call then fails. -/
theorem c4_amended_reload_true_then_false :
    ∀ (fuel : Nat) (c : Config),
      (sweep c.loaders).1 = true →
      ((∀ st : Store, (loadAll [] (sweep c.loaders).2).1 = Except.ok st →
          refsRefresh fuel st c.refs = Except.ok () →
          (refreshRef fuel c).1 = Except.ok true)
        ∧ (refreshRef fuel ((refreshRef fuel c).2)).1 = Except.ok false) := by
  intro fuel c h
  constructor
  · intro st hld hrf
    unfold refreshRef reload
    rw [if_pos h]
    simp only [hld, hrf]
  · exact reload_fst_of_sweep_false fuel _ (second_sweep_false fuel c)

/-- The scenario of `refresh_test` in src/value_ref.rs: one registered test
source `R` holding value 7 with its changed flag set, and one bound
`RefValue` cell at key "hello". -/
def rCfg : Config := ⟨[⟨none, false, Origin.testR 7 true⟩], ["hello"]⟩

theorem c4_amended_witness :
    (sweep rCfg.loaders).1 = true
    ∧ (refreshRef 100 rCfg).1 = Except.ok true
    ∧ (refreshRef 100 ((refreshRef 100 rCfg).2)).1 = Except.ok false := by
  refine ⟨by decide, ?_, (c4_amended_reload_true_then_false 100 rCfg (by decide)).2⟩
  exact (c4_amended_reload_true_then_false 100 rCfg (by decide)).1
    (loadSource [] [("hello", CfgValue.int (Int.ofNat 7))]) (by decide) (by decide)

/-- A configuration with one registered file source whose file changed on
disk to unparsable content: stored modification time 0, current time 1, file
present, parse failing. -/
def badFileCfg : Config :=
  ⟨[⟨some [], false,
      Origin.file "app.toml" true (some 0)
        ⟨some 1, true,
          Except.error (CfgError.configParseError "app.toml" "invalid")⟩⟩],
    []⟩

/-- C4 counterexample: the claim asserts that whenever a registered source
reports a real change, the first `reload` (`refresh_ref`) returns true; for
a file source whose changed content fails to parse, the source does report a
change, yet the first call returns the parse error, not true. -/
theorem c4_counterexample :
    (sweep badFileCfg.loaders).1 = true
    ∧ (refreshRef 100 badFileCfg).1
        = Except.error (CfgError.configParseError "app.toml" "invalid")
    ∧ (refreshRef 100 badFileCfg).1 ≠ Except.ok true := by decide

/-! ## Claim C8: refresh registry capacity -/

/-- Embedding of `Refresher` (src/value_ref.rs): the bound cells (each modelled by
its key) and the configured maximum. -/
structure Refresher where
  max : Nat
  refs : List String
deriving DecidableEq, Repr

/-- Embedding of `Refresher::new`: capacity 1024, no cells. -/
def Refresher.new : Refresher := ⟨1024, []⟩

/-- Embedding of `Refresher::push`: refuse when the list has reached the maximum
(`g.len() >= self.max`), otherwise append. -/
def Refresher.push (r : Refresher) (cell : String) : Except CfgError Refresher :=
  if r.max ≤ r.refs.length then Except.error (CfgError.tooManyInstances r.max)
  else Except.ok { r with refs := r.refs ++ [cell] }

/-- A sequence of `push` attempts; a failed push leaves the registry as
it was. -/
def applyPushes (r : Refresher) (cells : List String) : Refresher :=
  cells.foldl (fun r c =>
    match r.push c with
    | Except.ok r' => r'
    | Except.error _ => r) r

lemma applyPushes_invariant :
    ∀ (cells : List String) (r : Refresher), r.refs.length ≤ r.max →
      (applyPushes r cells).refs.length ≤ r.max
      ∧ (applyPushes r cells).max = r.max := by
  intro cells
  induction cells with
  | nil => intro r h; exact ⟨h, rfl⟩
  | cons c cells ih =>
    intro r h
    unfold applyPushes at ih ⊢
    simp only [List.foldl_cons]
    unfold Refresher.push
    by_cases hfull : r.max ≤ r.refs.length
    · simp only [hfull, if_pos, if_true]
      exact ih r h
    · simp only [hfull, if_neg, if_false]
      have := ih { r with refs := r.refs ++ [c] }
        (by simp only [List.length_append, List.length_singleton]; omega)
      simpa using this

/-- C8: a registry at its configured maximum rejects a further cell
with `TooManyInstances` and remains unchanged; consequently, starting
from `Refresher::new`, the cell list never exceeds the configured
maximum of 1024 no matter how many binds are attempted. -/
theorem c8_capacity_bound :
    (∀ (r : Refresher) (c : String), r.refs.length = r.max →
      r.push c = Except.error (CfgError.tooManyInstances r.max)
      ∧ applyPushes r [c] = r)
    ∧ (∀ cells : List String,
      (applyPushes Refresher.new cells).refs.length ≤ 1024) := by
  constructor
  · intro r c hfull
    have hge : r.max ≤ r.refs.length := le_of_eq hfull.symm
    constructor
    · unfold Refresher.push
      rw [if_pos hge]
    · unfold applyPushes Refresher.push
      simp only [List.foldl_cons, List.foldl_nil]
      rw [if_pos hge]
  · intro cells
    exact (applyPushes_invariant cells Refresher.new (by simp [Refresher.new])).1

theorem c8_witness :
    Refresher.push ⟨0, []⟩ "cell" = Except.error (CfgError.tooManyInstances 0)
    ∧ applyPushes ⟨0, []⟩ ["cell"] = (⟨0, []⟩ : Refresher)
    ∧ (applyPushes Refresher.new ["a", "b"]).refs.length ≤ 1024 :=
  ⟨(c8_capacity_bound.1 ⟨0, []⟩ "cell" rfl).1,
    (c8_capacity_bound.1 ⟨0, []⟩ "cell" rfl).2,
    c8_capacity_bound.2 ["a", "b"]⟩

end CfgRs
